import Mathlib

/-!
Shallow embedding of the core of the `flat-hypercube` repository
(`src/puzzle.rs` and `src/layout.rs`) and proofs about it.

Modelling conventions:
* Rust `i16` values are modelled as `Int`.  Rust's bitwise complement `!s`
  on a signed integer equals `-s-1`, which is `cpl` below.  The puzzle code
  (`puzzle.rs`) only ever adds or negates coordinates bounded by `|n| + 1`,
  so its arithmetic is modelled exactly.  The layout code (`layout.rs`)
  accumulates screen widths through `as u16` / `as i16` casts and `i16`
  additions that can genuinely wrap for large puzzles; these casts are
  modelled explicitly by `wrapI16` / `wrapU16` (reduction modulo `2^16`),
  following the release-build wrapping semantics (a debug build would panic
  at the same spots; the layout theorems carry a size hypothesis under
  which neither behaviour is reached).
* `HashMap<Vec<i16>, i16>` (the sticker store) is modelled as the total
  function `List Int → Option Int`; the key set is the support of that
  function.  A `HashMap` indexing panic (`map[&k]` with `k` absent)
  corresponds to the place where the model reads `none`; the safety claims
  prove those reads are in fact `some _` under the stated invariants.
* `HashMap<(i16, i16), Vec<i16>>` (layout points) is modelled as an
  association list whose later-inserted entries are kept in front, matching
  `HashMap::extend`'s overwrite semantics; the generator is proved to keep
  keys pairwise distinct, so the list denotes the same map as the `HashMap`.
* Functions mutating `&mut self` are modelled as functions returning the
  new value (paired with the `Option<()>` status where the source returns
  one, so that a rejected turn returning the state unchanged is visible).
-/

/-- Rust `!s` on a signed integer: bitwise complement, `= -s-1`. -/
def cpl (s : Int) : Int := -s - 1

/-- `fn ax(s: i16) -> i16 { s.max(!s) }` from `puzzle.rs`:
the unsigned axis of a signed axis code. -/
def ax (s : Int) : Int := max s (cpl s)

/-- The interior coordinate grid `(-n + 1..n).step_by(2)` used by
`make_solved`, `make_layout` and `clean`: `-n+1, -n+3, …, n-1`. -/
def oddRange (n : Int) : List Int :=
  (List.range n.toNat).map (fun k : Nat => -n + 1 + 2 * (k : Int))

/-- `Vec::rotate_right(1)`: the last element moves to the front. -/
def rotR (l : List Int) : List Int :=
  l.drop (l.length - 1) ++ l.take (l.length - 1)

/-- All tuples of `k` coordinates drawn from `oddRange n`
(`multi_cartesian_product` in `make_solved`). -/
def coordTuples (n : Int) : Nat → List (List Int)
  | 0 => [[]]
  | k + 1 => (oddRange n).flatMap (fun c => (coordTuples n k).map (c :: ·))

/-- `struct SideTurn` from `puzzle.rs`.  `src` / `dst` are the fields the
source names `from` / `to` (`from` is a Lean keyword). -/
structure SideTurn where
  side : Int
  layer_min : Int
  layer_max : Int
  src : Int
  dst : Int
deriving DecidableEq

/-- `SideTurn::inverse`: swap `from` and `to`. -/
def SideTurn.inverse (t : SideTurn) : SideTurn :=
  { src := t.dst, dst := t.src, side := t.side,
    layer_min := t.layer_min, layer_max := t.layer_max }

/-- `struct PuzzleTurn` from `puzzle.rs` (the spec's `PuzzleRotation`). -/
structure PuzzleTurn where
  src : Int
  dst : Int
deriving DecidableEq

/-- `PuzzleTurn::inverse`: swap `from` and `to`. -/
def PuzzleTurn.inverse (t : PuzzleTurn) : PuzzleTurn :=
  { src := t.dst, dst := t.src }

/-- `enum Turn` from `puzzle.rs`. -/
inductive Turn where
  | side : SideTurn → Turn
  | puzzle : PuzzleTurn → Turn
deriving DecidableEq

/-- `Turn::inverse`. -/
def Turn.inverse : Turn → Turn
  | .side t => .side t.inverse
  | .puzzle t => .puzzle t.inverse

/-- `struct Puzzle` from `puzzle.rs`; the sticker `HashMap` is modelled by
its lookup function. -/
structure Puzzle where
  n : Int
  d : Nat
  stickers : List Int → Option Int

/-- The association list of sticker entries built by the loops of
`Puzzle::make_solved`: for `d = 1` the two explicit entries; otherwise for
each `side ∈ [n, -n]`, interior tuple `coords`, and `f ∈ 0..d`, the entry
at the `f`-fold right rotation of `side :: coords` with color `f`
(or `!f` on the negative side). -/
def solvedList (n : Int) (d : Nat) : List (List Int × Int) :=
  if d = 1 then [([-n], cpl 0), ([n], 0)]
  else
    [n, -n].flatMap (fun side =>
      (coordTuples n (d - 1)).flatMap (fun coords =>
        (List.range d).map (fun f =>
          (rotR^[f] (side :: coords), if side ≥ 0 then (f : Int) else cpl f))))

/-- `Puzzle::make_solved`. -/
def Puzzle.make_solved (n : Int) (d : Nat) : Puzzle :=
  { n := n, d := d, stickers := fun p => (solvedList n d).lookup p }

/-- The face identity computed by `Puzzle::is_solved` for one sticker key:
the first index carrying `±n`, complemented when that coordinate is
negative.  `none` models the `expect("should be on a face")` panic. -/
def faceId (n : Int) (pos : List Int) : Option Int :=
  (pos.findIdx? (fun x => |x| = n)).map
    (fun i => if pos.getD i 0 < 0 then cpl (i : Int) else (i : Int))

/-- `Puzzle::is_solved`: every two stickers on the same face carry the same
color (the source folds this check through a `HashMap`; the result is
exactly this orientation-invariant predicate). -/
def Puzzle.is_solved (p : Puzzle) : Prop :=
  ∀ pos₁ pos₂ c₁ c₂ s, p.stickers pos₁ = some c₁ → p.stickers pos₂ = some c₂ →
    faceId p.n pos₁ = some s → faceId p.n pos₂ = some s → c₁ = c₂

/-- The coordinate of `pos` along `side`'s unsigned axis, as read by
`side_turn`'s window test: `pos[side]` when `side ≥ 0`, else `pos[!side]`. -/
def sideCoord (side : Int) (pos : List Int) : Int :=
  if side ≥ 0 then pos.getD side.toNat 0 else pos.getD (cpl side).toNat 0

/-- `side_turn`'s layer window `layer_min - 1 ..= layer_max + 1` applied to
the coordinate along `side`'s unsigned axis. -/
def inWindow (t : SideTurn) (pos : List Int) : Prop :=
  t.layer_min - 1 ≤ sideCoord t.side pos ∧ sideCoord t.side pos ≤ t.layer_max + 1

instance (t : SideTurn) (pos : List Int) : Decidable (inWindow t pos) := by
  unfold inWindow; infer_instance

/-- The pre-image position computed inside `side_turn` / `puzzle_rotate`:
`from_pos[from] = pos[to]; from_pos[to] = -pos[from]` for unsigned axis
indices `f` (from) and `g` (to). -/
def rotPos (f g : Nat) (pos : List Int) : List Int :=
  (pos.set f (pos.getD g 0)).set g (-(pos.getD f 0))

/-- The normalized `(from, to)` pair of unsigned axes computed by
`side_turn`: complement negative entries, then swap if the signs of the
original `from`/`to` disagreed. -/
def normFromTo (src dst : Int) : Int × Int :=
  let to_swap := decide (src < 0) ≠ decide (dst < 0)
  let f := if src < 0 then cpl src else src
  let g := if dst < 0 then cpl dst else dst
  if to_swap then (g, f) else (f, g)

/-- The validity test of `Puzzle::side_turn`
(`side == from || side == !from || side == to || side == !to
 || from == to || from == !to`). -/
def sideTurnInvalid (t : SideTurn) : Prop :=
  t.side = t.src ∨ t.side = cpl t.src ∨ t.side = t.dst ∨ t.side = cpl t.dst ∨
    t.src = t.dst ∨ t.src = cpl t.dst

instance (t : SideTurn) : Decidable (sideTurnInvalid t) := by
  unfold sideTurnInvalid; infer_instance

/-- `Puzzle::side_turn`, returning the `Option<()>` status together with
the (possibly unchanged) state.  On success every key inside the layer
window is rewritten to the pre-turn color of its pre-image; everything
else is left alone (`HashMap::extend` over the window keys only). -/
def Puzzle.side_turn (p : Puzzle) (t : SideTurn) : Option Unit × Puzzle :=
  if sideTurnInvalid t then (none, p)
  else
    let fg := normFromTo t.src t.dst;
    let st : List Int → Option Int := fun pos =>
      if (p.stickers pos).isSome ∧ inWindow t pos then
        p.stickers (rotPos fg.1.toNat fg.2.toNat pos)
      else p.stickers pos;
    (some (), { p with stickers := st })

/-- The validity test of `Puzzle::puzzle_rotate` (`from == to || from == !to`). -/
def puzzleTurnInvalid (t : PuzzleTurn) : Prop :=
  t.src = t.dst ∨ t.src = cpl t.dst

instance (t : PuzzleTurn) : Decidable (puzzleTurnInvalid t) := by
  unfold puzzleTurnInvalid; infer_instance

/-- `Puzzle::puzzle_rotate`: the same rewrite applied to every key
(the source replaces the whole map by `new_stickers`). -/
def Puzzle.puzzle_rotate (p : Puzzle) (t : PuzzleTurn) : Option Unit × Puzzle :=
  if puzzleTurnInvalid t then (none, p)
  else
    let st : List Int → Option Int := fun pos =>
      if (p.stickers pos).isSome then
        p.stickers (rotPos t.src.toNat t.dst.toNat pos)
      else none;
    (some (), { p with stickers := st })

/-- `Puzzle::turn`. -/
def Puzzle.turn (p : Puzzle) (t : Turn) : Option Unit × Puzzle :=
  match t with
  | .side t => p.side_turn t
  | .puzzle t => p.puzzle_rotate t

/-- `Puzzle::piece_body`: shift the first boundary coordinate (`±n`) one
step inward; identity when there is none. -/
def Puzzle.piece_body (p : Puzzle) (piece : List Int) : List Int :=
  match piece.findIdx? (fun x => |x| = p.n) with
  | none => piece
  | some ind =>
    if piece.getD ind 0 = p.n then piece.set ind (piece.getD ind 0 - 1)
    else piece.set ind (piece.getD ind 0 + 1)

/-- The loop of `Puzzle::piece_body_stickers`, walking the coordinates of
`orig` with their indices: a coordinate at `±(n-1)` contributes the color
at the boundary-shifted position (two complementary colors when `n = 1`);
`none` models the `self.stickers[&piece]` indexing panic. -/
def Puzzle.pbs_go (p : Puzzle) (orig : List Int) : Nat → List Int → Option (List Int)
  | _, [] => some []
  | ind, x :: xs =>
    if x = p.n - 1 ∨ x = -(p.n - 1) then
      let shifted := orig.set ind (if x = p.n - 1 then x + 1 else x - 1)
      match p.stickers shifted, p.pbs_go orig (ind + 1) xs with
      | some c, some rest =>
        some ((if p.n = 1 then [c, cpl c] else [c]) ++ rest)
      | _, _ => none
    else p.pbs_go orig (ind + 1) xs

/-- `Puzzle::piece_body_stickers`. -/
def Puzzle.piece_body_stickers (p : Puzzle) (piece : List Int) : Option (List Int) :=
  p.pbs_go piece 0 piece

/-- `Puzzle::stickers(piece)` (the color-list query; named `stickersAt`
here because the struct field already carries the source name). -/
def Puzzle.stickersAt (p : Puzzle) (piece : List Int) : Option (List Int) :=
  p.piece_body_stickers (p.piece_body piece)

example : (Puzzle.make_solved 1 1).stickers [1] = some 0 := by decide
example : (Puzzle.make_solved 1 1).stickers [-1] = some (-1) := by decide
example : (Puzzle.make_solved 1 1).stickers [0] = none := by decide
example : (Puzzle.make_solved 1 2).stickers [1, 0] = some 0 := by decide
example : (Puzzle.make_solved 1 2).stickers [0, 1] = some 1 := by decide
example : (Puzzle.make_solved 1 2).stickers [0, -1] = some (-2) := by decide
example : (Puzzle.make_solved 2 2).stickers [2, 1] = some 0 := by decide
example : (Puzzle.make_solved 2 2).stickers [1, 2] = some 1 := by decide
example : (Puzzle.make_solved 2 2).stickers [-1, -2] = some (-2) := by decide
example : (Puzzle.make_solved 2 2).stickers [1, 1] = none := by decide

/-! ## Layout (`layout.rs`) -/

/-- `const GAPS` from `layout.rs`. -/
def GAPS : List Int := [0, 1, 0, 2, 1, 10, 4, 40, 18]

/-- `const GAPS_COMPACT` from `layout.rs`. -/
def GAPS_COMPACT : List Int := [0, 1, 0, 1, 0, 1, 0, 1, 0]

/-- The value of an `as i16` cast (and of wrapping `i16` addition or
negation in a release build): reduce modulo `2^16` into
`[-32768, 32767]`.  A debug build panics where the addition wraps; the
layout theorems below carry size hypotheses under which every `wrapI16`
application is the identity, so neither behaviour is reached there. -/
def wrapI16 (x : Int) : Int := (x + 32768) % 65536 - 32768

/-- The value of an `as u16` cast: reduce modulo `2^16` into `[0, 65535]`. -/
def wrapU16 (x : Int) : Int := x % 65536

/-- `struct Layout` from `layout.rs`.  The two `HashMap`s are modelled as
association lists with later-inserted entries in front (so `List.lookup`
sees the overwriting entry first).  `width` / `height` hold the value of
the `u16` fields as an `Int` (every write goes through `wrapU16`), and
point keys hold `i16` values (every arithmetic write goes through
`wrapI16`). -/
structure Layout where
  width : Int
  height : Int
  points : List ((Int × Int) × List Int)
  keybind_hints : List ((Int × Int) × Option Int)

/-- `Layout::new`. -/
def Layout.empty : Layout := { width := 0, height := 0, points := [], keybind_hints := [] }

/-- `.max().unwrap_or(&dflt)` over a list. -/
def maxOr (l : List Int) (dflt : Int) : Int :=
  match l with
  | [] => dflt
  | x :: xs => xs.foldl max x

/-- `.min().unwrap_or(&dflt)` over a list. -/
def minOr (l : List Int) (dflt : Int) : Int :=
  match l with
  | [] => dflt
  | x :: xs => xs.foldl min x

/-- `Layout::squish_right`: shrink `width` to the tight bound
`(max x + 1) as u16` (`0` when there are no points); the `i16` increment
and the `as u16` cast wrap as in the source. -/
def Layout.squish_right (l : Layout) : Layout :=
  { l with width := wrapU16 (wrapI16 (maxOr (l.points.map (fun e => e.1.1)) (-1) + 1)) }

/-- `Layout::squish_bottom`. -/
def Layout.squish_bottom (l : Layout) : Layout :=
  { l with height := wrapU16 (wrapI16 (maxOr (l.points.map (fun e => e.1.2)) (-1) + 1)) }

/-- `Layout::move_right(shift)`: translate every point and hint
horizontally by the wrapping `i16` sum, and set
`width = (self.width as i16 + shift) as u16`. -/
def Layout.move_right (l : Layout) (shift : Int) : Layout :=
  { width := wrapU16 (wrapI16 (wrapI16 l.width + shift)), height := l.height,
    points := l.points.map (fun e => ((wrapI16 (e.1.1 + shift), e.1.2), e.2)),
    keybind_hints := l.keybind_hints.map (fun e => ((wrapI16 (e.1.1 + shift), e.1.2), e.2)) }

/-- `Layout::move_down(shift)`. -/
def Layout.move_down (l : Layout) (shift : Int) : Layout :=
  { width := l.width, height := wrapU16 (wrapI16 (wrapI16 l.height + shift)),
    points := l.points.map (fun e => ((e.1.1, wrapI16 (e.1.2 + shift)), e.2)),
    keybind_hints := l.keybind_hints.map (fun e => ((e.1.1, wrapI16 (e.1.2 + shift)), e.2)) }

/-- `Layout::squish_left`: translate so the minimal `x` becomes `0`
(the `i16` negation wraps at `-32768`). -/
def Layout.squish_left (l : Layout) : Layout :=
  l.move_right (wrapI16 (-(minOr (l.points.map (fun e => e.1.1)) 0)))

/-- `Layout::squish_top`. -/
def Layout.squish_top (l : Layout) : Layout :=
  l.move_down (wrapI16 (-(minOr (l.points.map (fun e => e.1.2)) 0)))

/-- `Layout::squish_horiz`. -/
def Layout.squish_horiz (l : Layout) : Layout := l.squish_left.squish_right

/-- `Layout::squish_vert`. -/
def Layout.squish_vert (l : Layout) : Layout := l.squish_top.squish_bottom

/-- `Layout::union`: `other`'s entries overwrite `self`'s (they are kept in
front), sizes take the maximum. -/
def Layout.union (l other : Layout) : Layout :=
  { width := max l.width other.width, height := max l.height other.height,
    points := other.points ++ l.points,
    keybind_hints := other.keybind_hints ++ l.keybind_hints }

/-- `Layout::join_horiz`: the shift `self.width as i16 + gap` is computed
in wrapping `i16` arithmetic. -/
def Layout.join_horiz (l : Layout) (other : Layout) (gap : Int) : Layout :=
  l.union (other.move_right (wrapI16 (wrapI16 l.width + gap)))

/-- `Layout::join_vert`. -/
def Layout.join_vert (l : Layout) (other : Layout) (gap : Int) : Layout :=
  l.union (other.move_down (wrapI16 (wrapI16 l.height + gap)))

/-- `Layout::concat_horiz` (the source panics on an empty vector; it is
never called with one, and the model returns the empty layout there). -/
def Layout.concat_horiz (layouts : List Layout) (gap : Int) : Layout :=
  match layouts with
  | [] => Layout.empty
  | l :: rest => rest.foldl (fun acc x => acc.join_horiz x gap) l

/-- `Layout::concat_vert`. -/
def Layout.concat_vert (layouts : List Layout) (gap : Int) : Layout :=
  match layouts with
  | [] => Layout.empty
  | l :: rest => rest.foldl (fun acc x => acc.join_vert x gap) l

/-- `Layout::clean(n)`: drop positions carrying two or more coordinates of
absolute value `n`. -/
def Layout.clean (l : Layout) (n : Int) : Layout :=
  { l with points := l.points.filter (fun e => (e.2.countP (fun x => |x| = n)) ≤ 1) }

/-- `Layout::push_all(x)`: append `x` to every stored position vector. -/
def Layout.push_all (l : Layout) (x : Int) : Layout :=
  { l with points := l.points.map (fun e => (e.1, e.2 ++ [x])) }

/-- The full coordinate sequence `once(-n).chain((-n+1..n).step_by(2)).chain(once(n))`
iterated by `make_layout`. -/
def iList (n : Int) : List Int := -n :: (oddRange n ++ [n])

/-- The keybind-hint `retain` closure of `make_layout`, applied to one
hint entry for slice value `i` at depth `d`. -/
def hintStep (n : Int) (d : Nat) (i : Int) (e : (Int × Int) × Option Int) :
    Option ((Int × Int) × Option Int) :=
  if i = -n + 1 then
    if e.2 = none then some (e.1, some (cpl (d - 1 : Nat))) else none
  else if i = n - 1 then
    if e.2 = none then some (e.1, some ((d - 1 : Nat) : Int)) else none
  else if i = 0 ∨ i = 1 then some e else none

/-- One slice of `make_layout`'s loop body: copy the lower layout, append
the slice coordinate `i`, clean, squish when `i` is a boundary value, and
rewrite the keybind hints. -/
def layoutSlice (lower : Layout) (n : Int) (d : Nat) (i : Int) : Layout :=
  let l := (lower.push_all i).clean n
  let l :=
    if |i| = n then (if d % 2 = 1 then l.squish_horiz else l.squish_vert) else l
  { l with keybind_hints := l.keybind_hints.filterMap (hintStep n d i) }

/-- `Layout::make_layout`.  (`gaps[d]` is modelled with default `0`; the
source panics for `d ≥ 9`, so the theorems restrict to `d ≤ 8`.) -/
def Layout.make_layout (n : Int) (d : Nat) (compact : Bool) : Layout :=
  let gaps := if compact then GAPS_COMPACT else GAPS
  match d with
  | 0 =>
    { width := 1, height := 1, points := [((0, 0), [])],
      keybind_hints := if n > 2 then [((0, 0), none)] else [] }
  | dp + 1 =>
    let lower := Layout.make_layout n dp compact
    let row := (iList n).map (fun i => layoutSlice lower n (dp + 1) i)
    if (dp + 1) % 2 = 1 then Layout.concat_horiz row (gaps.getD (dp + 1) 0)
    else Layout.concat_vert row.reverse (gaps.getD (dp + 1) 0)

/-- The list of position vectors stored in a layout. -/
def Layout.posList (l : Layout) : List (List Int) := l.points.map (fun e => e.2)

example : (Layout.make_layout 1 1 false).posList = [[1], [0], [-1]] := by decide
example : ((Layout.make_layout 2 2 false).posList.length = 12) := by decide
example : [0] ∈ (Layout.make_layout 1 1 false).posList := by decide
example : ((Layout.make_layout 2 2 false).points.map (fun e => e.1)).Nodup := by decide

/-- A conservative per-axis size estimate for `make_layout`: each recursion
level concatenates the `n + 2` slices of the previous level along
alternating screen axes, with a gap before each slice over-counted once.
Whenever both components are at most `32767 = i16::MAX`, every `u16` /
`i16` cast performed while building the layout is value-preserving
(`make_layout_spec` proves the actual width and height stay below this
estimate at every level, and `Layout.Good` keeps all point coordinates
inside `[0, width) × [0, height)`). -/
def sizeBound (n : Int) (compact : Bool) : Nat → Int × Int
  | 0 => (1, 1)
  | d + 1 =>
    let p := sizeBound n compact d
    let g := (if compact then GAPS_COMPACT else GAPS).getD (d + 1) 0
    if (d + 1) % 2 = 1 then ((n + 2) * (p.1 + g), p.2)
    else (p.1, (n + 2) * (p.2 + g))

example : sizeBound 1 false 1 = (6, 1) := by decide
example : sizeBound 3 false 3 = (60, 5) := by decide

/-! ## Basic facts about the axis encoding and the coordinate grid -/

theorem cpl_cpl (s : Int) : cpl (cpl s) = s := by
  simp [cpl]

theorem cpl_inj {a b : Int} (h : cpl a = cpl b) : a = b := by
  simpa [cpl] using h

theorem ax_eq_ite (s : Int) : ax s = if 0 ≤ s then s else cpl s := by
  simp only [ax, cpl, max_def]
  split <;> split <;> omega

theorem ax_nonneg (s : Int) : 0 ≤ ax s := by
  simp only [ax_eq_ite, cpl]; split <;> omega

theorem ax_eq_ax_iff {a b : Int} : ax a = ax b ↔ (a = b ∨ a = cpl b) := by
  rw [ax_eq_ite, ax_eq_ite]
  simp only [cpl]
  split <;> split <;> omega

theorem ax_cpl (s : Int) : ax (cpl s) = ax s := by
  rw [ax_eq_ax_iff]; right; rfl

theorem mem_oddRange {x n : Int} :
    x ∈ oddRange n ↔ (-n + 1 ≤ x ∧ x ≤ n - 1 ∧ (x + n) % 2 = 1) := by
  simp only [oddRange, List.mem_map, List.mem_range]
  constructor
  · rintro ⟨k, hk, rfl⟩
    omega
  · intro h
    exact ⟨((x + n - 1) / 2).toNat, by omega, by omega⟩

theorem neg_mem_oddRange {x n : Int} (h : x ∈ oddRange n) : -x ∈ oddRange n := by
  rw [mem_oddRange] at h ⊢; omega

theorem abs_of_mem_oddRange {x n : Int} (h : x ∈ oddRange n) : |x| ≤ n - 1 := by
  rw [mem_oddRange] at h; rw [abs_le]; omega

theorem not_boundary_of_mem_oddRange {x n : Int} (hn : 1 ≤ n) (h : x ∈ oddRange n) :
    ¬ |x| = n := by
  have := abs_of_mem_oddRange h; omega

theorem oddRange_ne_nil (n : Int) (hn : 1 ≤ n) : oddRange n ≠ [] := by
  have h1 : n - 1 ∈ oddRange n := by rw [mem_oddRange]; omega
  intro h; rw [h] at h1; simp at h1

/-! ## Association-list lookup facts -/

theorem lookup_isSome_iff {α β : Type} [BEq α] [LawfulBEq α]
    (l : List (α × β)) (k : α) :
    (l.lookup k).isSome ↔ k ∈ l.map Prod.fst := by
  induction l with
  | nil => simp [List.lookup]
  | cons e es ih =>
    rw [List.lookup]
    by_cases h : k = e.1
    · subst h; simp
    · have hb : (k == e.1) = false := by simpa using h
      rw [hb]
      simp only [List.map_cons, List.mem_cons]
      rw [ih]
      simp [h]

theorem lookup_mem {α β : Type} [BEq α] [LawfulBEq α]
    {l : List (α × β)} {k : α} {v : β} (h : l.lookup k = some v) : (k, v) ∈ l := by
  induction l with
  | nil => simp [List.lookup] at h
  | cons e es ih =>
    rw [List.lookup] at h
    by_cases hk : k = e.1
    · subst hk
      rw [show (e.1 == e.1) = true by simp] at h
      have hv : e.2 = v := by
        cases hm : e.1 == e.1 <;> simp [hm] at h <;> simp [h]
      subst hv
      simp
    · have hb : (k == e.1) = false := by simpa using hk
      rw [hb] at h
      exact List.mem_cons_of_mem _ (ih h)

/-! ## `List.set` / `getD` helpers -/

theorem getD_set_self {l : List Int} {i : Nat} {a : Int} (h : i < l.length) :
    (l.set i a).getD i 0 = a := by
  rw [List.getD_eq_getElem?_getD, List.getElem?_set_self h]; rfl

theorem getD_set_ne {l : List Int} {i j : Nat} {a : Int} (h : i ≠ j) :
    (l.set i a).getD j 0 = l.getD j 0 := by
  rw [List.getD_eq_getElem?_getD, List.getElem?_set_ne h, ← List.getD_eq_getElem?_getD]

/-! ## Sticker and body position predicates -/

/-- A sticker position: length `d`, one coordinate `±n` (at some index `f`),
every other coordinate on the interior grid `oddRange n`.  (For `n ≥ 1` the
boundary index is necessarily unique.) -/
def isSticker (n : Int) (d : Nat) (p : List Int) : Prop :=
  p.length = d ∧ ∃ f, f < p.length ∧ |p.getD f 0| = n ∧
    ∀ j, j < p.length → j ≠ f → p.getD j 0 ∈ oddRange n

/-- A piece-body position: length `d`, every coordinate on the interior grid. -/
def isBody (n : Int) (d : Nat) (p : List Int) : Prop :=
  p.length = d ∧ ∀ x ∈ p, x ∈ oddRange n

theorem getD_append_left {a b : List Int} {j : Nat} (h : j < a.length) :
    (a ++ b).getD j 0 = a.getD j 0 := by
  rw [List.getD_eq_getElem?_getD, List.getD_eq_getElem?_getD, List.getElem?_append_left h]

theorem getD_append_mid {a b : List Int} {y : Int} :
    (a ++ y :: b).getD a.length 0 = y := by
  rw [List.getD_eq_getElem?_getD, List.getElem?_append_right (le_refl _)]
  simp

theorem getD_append_right {a b : List Int} {y : Int} {j : Nat} (h : a.length < j) :
    (a ++ y :: b).getD j 0 = b.getD (j - a.length - 1) 0 := by
  rw [List.getD_eq_getElem?_getD, List.getElem?_append_right (le_of_lt h),
    List.getD_eq_getElem?_getD]
  have : j - a.length = (j - a.length - 1) + 1 := by omega
  rw [this]
  simp

theorem isSticker_of_append {n : Int} {d : Nat} {a b : List Int} {y : Int}
    (ha : ∀ x ∈ a, x ∈ oddRange n) (hb : ∀ x ∈ b, x ∈ oddRange n)
    (hy : |y| = n) (hlen : a.length + 1 + b.length = d) :
    isSticker n d (a ++ y :: b) := by
  refine ⟨by simp only [List.length_append, List.length_cons]; omega, a.length,
    by simp only [List.length_append, List.length_cons]; omega,
    by rwa [getD_append_mid], ?_⟩
  intro j hj hne
  rcases lt_or_gt_of_ne hne with hlt | hgt
  · rw [getD_append_left hlt]
    apply ha
    rw [List.getD_eq_getElem?_getD, List.getElem?_eq_getElem hlt]
    exact List.getElem_mem _
  · rw [getD_append_right hgt]
    apply hb
    have hj' : j - a.length - 1 < b.length := by simp at hj; omega
    rw [List.getD_eq_getElem?_getD, List.getElem?_eq_getElem hj']
    exact List.getElem_mem _

theorem isSticker_elim {n : Int} {d : Nat} {p : List Int} (h : isSticker n d p) :
    ∃ a y b, p = a ++ y :: b ∧ a.length + 1 + b.length = d ∧ |y| = n ∧
      (∀ x ∈ a, x ∈ oddRange n) ∧ (∀ x ∈ b, x ∈ oddRange n) := by
  obtain ⟨hlen, f, hf, hy, hrest⟩ := h
  refine ⟨p.take f, p.getD f 0, p.drop (f + 1), ?_, ?_, hy, ?_, ?_⟩
  · conv_lhs => rw [← List.take_append_drop f p]
    rw [List.drop_eq_getElem_cons hf]
    rw [List.getD_eq_getElem?_getD, List.getElem?_eq_getElem hf]
    rfl
  · simp
    omega
  · intro x hx
    rw [List.mem_take_iff_getElem] at hx
    obtain ⟨j, hj, rfl⟩ := hx
    have hjf : j < f := by omega
    have := hrest j (by omega) (by omega)
    rwa [List.getD_eq_getElem?_getD, List.getElem?_eq_getElem (by omega),
      Option.getD_some] at this
  · intro x hx
    rw [List.mem_drop_iff_getElem] at hx
    obtain ⟨j, hj, rfl⟩ := hx
    have := hrest (f + 1 + j) (by omega) (by omega)
    rwa [List.getD_eq_getElem?_getD, List.getElem?_eq_getElem (by omega),
      Option.getD_some] at this

/-! ## Structure of `solvedList` -/

theorem rotR_concat (a : List Int) (x : Int) : rotR (a ++ [x]) = x :: a := by
  unfold rotR
  have h1 : (a ++ [x]).length - 1 = a.length := by simp
  rw [h1, List.drop_left, List.take_left]
  rfl

theorem rotR_iter : ∀ (f : Nat) (x : Int) (A B : List Int), B.length = f →
    rotR^[f] (x :: (A ++ B)) = B ++ x :: A := by
  intro f
  induction f with
  | zero =>
    intro x A B hB
    rw [List.length_eq_zero] at hB
    subst hB
    simp
  | succ f ih =>
    intro x A B hB
    rcases List.eq_nil_or_concat' B with rfl | ⟨B', b, rfl⟩
    · simp at hB
    · have hB' : B'.length = f := by simp at hB; omega
      rw [Function.iterate_succ_apply]
      have h1 : x :: (A ++ (B' ++ [b])) = (x :: (A ++ B')) ++ [b] := by simp
      rw [h1, rotR_concat]
      have h2 : rotR^[f] (b :: ((x :: A) ++ B')) = B' ++ b :: x :: A := ih b (x :: A) B' hB'
      rw [show b :: (x :: (A ++ B')) = b :: ((x :: A) ++ B') by simp, h2]
      simp

theorem mem_coordTuples {n : Int} : ∀ {k : Nat} {c : List Int},
    c ∈ coordTuples n k ↔ (c.length = k ∧ ∀ x ∈ c, x ∈ oddRange n) := by
  intro k
  induction k with
  | zero =>
    intro c
    constructor
    · rintro h
      simp [coordTuples] at h
      subst h
      simp
    · rintro ⟨hl, _⟩
      rw [List.length_eq_zero] at hl
      subst hl
      simp [coordTuples]
  | succ k ih =>
    intro c
    simp only [coordTuples, List.mem_flatMap, List.mem_map]
    constructor
    · rintro ⟨y, hy, t, ht, rfl⟩
      obtain ⟨hl, hall⟩ := ih.mp ht
      refine ⟨by simp [hl], ?_⟩
      intro x hx
      rcases List.mem_cons.mp hx with rfl | hx
      · exact hy
      · exact hall x hx
    · rintro ⟨hl, hall⟩
      cases c with
      | nil => simp at hl
      | cons y t =>
        refine ⟨y, hall y (by simp), t, ih.mpr ⟨by simpa using hl, ?_⟩, rfl⟩
        intro x hx
        exact hall x (by simp [hx])

/-- Every entry of `solvedList` is a boundary value wrapped between two
interior blocks, with its color determined by the boundary index and sign. -/
theorem mem_solvedList_elim {n : Int} {d : Nat} {k : List Int} {c : Int}
    (hn : 1 ≤ n) (hd : 1 ≤ d) (h : (k, c) ∈ solvedList n d) :
    ∃ (A : List Int) (y : Int) (B : List Int),
      k = A ++ y :: B ∧ A.length + 1 + B.length = d ∧ (y = n ∨ y = -n) ∧
      (∀ x ∈ A, x ∈ oddRange n) ∧ (∀ x ∈ B, x ∈ oddRange n) ∧
      c = if 0 ≤ y then (A.length : Int) else cpl A.length := by
  by_cases hd1 : d = 1
  · subst hd1
    simp only [solvedList, reduceIte, List.mem_cons, List.mem_singleton] at h
    rcases h with h | h | h
    · rw [Prod.mk.injEq] at h
      obtain ⟨h1, h2⟩ := h
      refine ⟨[], -n, [], by simpa using h1, by simp, Or.inr rfl, by simp, by simp, ?_⟩
      rw [if_neg (by omega)]
      simpa using h2
    · rw [Prod.mk.injEq] at h
      obtain ⟨h1, h2⟩ := h
      refine ⟨[], n, [], by simpa using h1, by simp, Or.inl rfl, by simp, by simp, ?_⟩
      rw [if_pos (by omega)]
      simpa using h2
    · simp at h
  · rw [solvedList, if_neg hd1] at h
    simp only [List.mem_flatMap, List.mem_map, List.mem_cons, List.mem_singleton,
      List.mem_range] at h
    obtain ⟨side, hside, coords, hcoords, f, hf, hkc⟩ := h
    obtain ⟨hcl, hcall⟩ := mem_coordTuples.mp hcoords
    have hkk : k = rotR^[f] (side :: coords) := (congrArg Prod.fst hkc).symm
    have hcc : c = if side ≥ 0 then (f : Int) else cpl f := (congrArg Prod.snd hkc).symm
    have hfd : f ≤ coords.length := by omega
    have hsplit : side :: coords = side :: (coords.take (coords.length - f) ++ coords.drop (coords.length - f)) := by
      rw [List.take_append_drop]
    have hrot : rotR^[f] (side :: coords) =
        coords.drop (coords.length - f) ++ side :: coords.take (coords.length - f) := by
      rw [hsplit]
      exact rotR_iter f side _ _ (by simp; omega)
    have hside' : side = n ∨ side = -n := by
      rcases hside with h | h | h
      · exact Or.inl h
      · exact Or.inr h
      · simp at h
    refine ⟨coords.drop (coords.length - f), side, coords.take (coords.length - f),
      by rw [hkk, hrot], by simp only [List.length_drop, List.length_take]; omega,
      hside', ?_, ?_, ?_⟩
    · intro x hx; exact hcall x (List.mem_of_mem_drop hx)
    · intro x hx; exact hcall x (List.mem_of_mem_take hx)
    · have hAl : (coords.drop (coords.length - f)).length = f := by
        simp only [List.length_drop]; omega
      rw [hAl, hcc]

/-- Conversely, every interior-block decomposition occurs in `solvedList`. -/
theorem mem_solvedList_intro {n : Int} {d : Nat} {A B : List Int} {y : Int}
    (hn : 1 ≤ n) (hy : y = n ∨ y = -n)
    (hA : ∀ x ∈ A, x ∈ oddRange n) (hB : ∀ x ∈ B, x ∈ oddRange n)
    (hlen : A.length + 1 + B.length = d) :
    (A ++ y :: B, if 0 ≤ y then (A.length : Int) else cpl A.length) ∈ solvedList n d := by
  by_cases hd1 : d = 1
  · subst hd1
    have hA0 : A = [] := by
      rw [← List.length_eq_zero]; omega
    have hB0 : B = [] := by
      rw [← List.length_eq_zero]; omega
    subst hA0; subst hB0
    simp only [solvedList, if_pos rfl]
    rcases hy with h | h
    · rw [h, if_pos (show (0 : Int) ≤ n by omega)]
      simp
    · rw [h, if_neg (show ¬ (0 : Int) ≤ -n by omega)]
      simp
  · rw [solvedList, if_neg hd1]
    simp only [List.mem_flatMap, List.mem_map, List.mem_cons, List.mem_singleton,
      List.mem_range]
    refine ⟨y, by tauto, B ++ A, ?_, A.length, by omega, ?_⟩
    · rw [mem_coordTuples]
      constructor
      · simp only [List.length_append]; omega
      · intro x hx
        rcases List.mem_append.mp hx with h | h
        · exact hB x h
        · exact hA x h
    · have hsplit : y :: (B ++ A) = y :: ((B ++ A).take ((B ++ A).length - A.length) ++ (B ++ A).drop ((B ++ A).length - A.length)) := by
        rw [List.take_append_drop]
      have htake : (B ++ A).take ((B ++ A).length - A.length) = B := by
        have : (B ++ A).length - A.length = B.length := by simp
        rw [this, List.take_left]
      have hdrop : (B ++ A).drop ((B ++ A).length - A.length) = A := by
        have : (B ++ A).length - A.length = B.length := by simp
        rw [this, List.drop_left]
      have hrot : rotR^[A.length] (y :: (B ++ A)) = A ++ y :: B := by
        rw [hsplit, htake, hdrop]
        exact rotR_iter A.length y B A rfl
      rw [hrot]

/-! ## The support and colors of `make_solved` -/

theorem make_solved_support {n : Int} {d : Nat} (hn : 1 ≤ n) (hd : 1 ≤ d) (p : List Int) :
    ((Puzzle.make_solved n d).stickers p).isSome ↔ isSticker n d p := by
  show ((solvedList n d).lookup p).isSome ↔ _
  rw [lookup_isSome_iff]
  constructor
  · intro hmem
    obtain ⟨e, he, hfst⟩ := List.mem_map.mp hmem
    have he' : (p, e.2) ∈ solvedList n d := by
      have : e = (p, e.2) := by
        rw [← hfst]
      rwa [this] at he
    obtain ⟨A, y, B, hk, hlen, hy, hA, hB, _⟩ := mem_solvedList_elim hn hd he'
    rw [hk]
    refine isSticker_of_append hA hB ?_ hlen
    rcases hy with rfl | rfl
    · exact abs_of_nonneg (by omega)
    · rw [abs_neg]; exact abs_of_nonneg (by omega)
  · intro hs
    obtain ⟨a, y, b, rfl, hlen, hy, ha, hb⟩ := isSticker_elim hs
    have hy' : y = n ∨ y = -n := by
      rcases abs_cases y with ⟨h1, _⟩ | ⟨h1, _⟩ <;> omega
    have hm := mem_solvedList_intro hn hy' ha hb hlen
    exact List.mem_map.mpr ⟨_, hm, rfl⟩

theorem findIdx?_append_boundary {n : Int} {A B : List Int} {y : Int}
    (hA : ∀ x ∈ A, ¬ |x| = n) (hy : |y| = n) :
    (A ++ y :: B).findIdx? (fun x => |x| = n) = some A.length := by
  rw [List.findIdx?_eq_some_iff_findIdx_eq]
  constructor
  · simp only [List.length_append, List.length_cons]; omega
  · rw [List.findIdx_append]
    have hAfull : List.findIdx (fun x => |x| = n) A = A.length := by
      rw [List.findIdx_eq_length]
      intro x hx
      simpa using hA x hx
    rw [hAfull, if_neg (by omega), List.findIdx_cons]
    have hyt : (fun x => decide (|x| = n)) y = true := by simpa using hy
    simp only [hyt, cond_true, Nat.zero_add]

theorem make_solved_color {n : Int} {d : Nat} (hn : 1 ≤ n) (hd : 1 ≤ d)
    {p : List Int} {c : Int} (h : (Puzzle.make_solved n d).stickers p = some c) :
    faceId n p = some c := by
  have hmem : (p, c) ∈ solvedList n d := lookup_mem h
  obtain ⟨A, y, B, rfl, hlen, hy, hA, hB, hc⟩ := mem_solvedList_elim hn hd hmem
  have hyabs : |y| = n := by
    rcases hy with rfl | rfl
    · exact abs_of_nonneg (by omega)
    · rw [abs_neg]; exact abs_of_nonneg (by omega)
  have hAn : ∀ x ∈ A, ¬ |x| = n := by
    intro x hx
    have := abs_of_mem_oddRange (hA x hx)
    omega
  rw [faceId, findIdx?_append_boundary hAn hyabs, Option.map_some', getD_append_mid]
  rcases hy with rfl | rfl
  · rw [if_neg (by omega)]
    rw [hc, if_pos (by omega)]
  · rw [if_pos (by omega)]
    rw [hc, if_neg (by omega)]

/-- `make_solved` is solved: on the solved state every sticker's color
coincides with its `is_solved` face identity. -/
theorem make_solved_is_solved {n : Int} {d : Nat} (hn : 1 ≤ n) (hd : 1 ≤ d) :
    (Puzzle.make_solved n d).is_solved := by
  intro pos₁ pos₂ c₁ c₂ s h1 h2 hf1 hf2
  have e1 : faceId n pos₁ = some c₁ := make_solved_color hn hd h1
  have e2 : faceId n pos₂ = some c₂ := make_solved_color hn hd h2
  have : some c₁ = some s := by rw [← e1]; exact hf1
  have h1s : c₁ = s := by injection this
  have : some c₂ = some s := by rw [← e2]; exact hf2
  have h2s : c₂ = s := by injection this
  rw [h1s, h2s]

example : ((Puzzle.make_solved 1 3).side_turn ⟨0, 0, 0, 1, 2⟩).2.stickers [0, 1, 0]
    = some (-3) := by decide

example : ((Puzzle.make_solved 1 3).side_turn ⟨0, 0, 0, 1, 2⟩).2.stickers [1, 0, 0]
    = some 0 := by decide

example : ((Puzzle.make_solved 1 3).side_turn ⟨0, 0, 0, 1, 1⟩).1 = none := by decide

/-! ## Properties of `rotPos` -/

theorem rotPos_length (f g : Nat) (p : List Int) : (rotPos f g p).length = p.length := by
  simp [rotPos]

theorem rotPos_getD_fst {f g : Nat} {p : List Int} (hfg : f ≠ g) (hf : f < p.length) :
    (rotPos f g p).getD f 0 = p.getD g 0 := by
  rw [rotPos, getD_set_ne (Ne.symm hfg), getD_set_self hf]

theorem rotPos_getD_snd {f g : Nat} {p : List Int} (hg : g < p.length) :
    (rotPos f g p).getD g 0 = -(p.getD f 0) := by
  rw [rotPos, getD_set_self (by simpa using hg)]

theorem rotPos_getD_other {f g j : Nat} {p : List Int} (hjf : j ≠ f) (hjg : j ≠ g) :
    (rotPos f g p).getD j 0 = p.getD j 0 := by
  rw [rotPos, getD_set_ne (Ne.symm hjg), getD_set_ne (Ne.symm hjf)]

theorem isSticker_rotPos {n : Int} {d : Nat} {p : List Int} {f g : Nat}
    (hs : isSticker n d p) (hfg : f ≠ g) (hf : f < d) (hg : g < d) :
    isSticker n d (rotPos f g p) := by
  obtain ⟨hlen, f0, hf0, hb, hrest⟩ := hs
  refine ⟨by rw [rotPos_length]; exact hlen, ?_⟩
  by_cases h1 : f0 = f
  · refine ⟨g, by rw [rotPos_length]; omega, ?_, ?_⟩
    · rw [rotPos_getD_snd (by omega), abs_neg, ← h1]
      exact hb
    · intro j hj hne
      rw [rotPos_length] at hj
      by_cases h2 : j = f
      · subst h2
        rw [rotPos_getD_fst hfg (by omega)]
        exact hrest g (by omega) (by omega)
      · rw [rotPos_getD_other h2 hne]
        exact hrest j hj (by omega)
  · by_cases h2 : f0 = g
    · refine ⟨f, by rw [rotPos_length]; omega, ?_, ?_⟩
      · rw [rotPos_getD_fst hfg (by omega), ← h2]
        exact hb
      · intro j hj hne
        rw [rotPos_length] at hj
        by_cases h3 : j = g
        · subst h3
          rw [rotPos_getD_snd (by omega)]
          exact neg_mem_oddRange (hrest f (by omega) (by omega))
        · rw [rotPos_getD_other hne h3]
          exact hrest j hj (by omega)
    · refine ⟨f0, by rw [rotPos_length]; omega, ?_, ?_⟩
      · rw [rotPos_getD_other h1 h2]
        exact hb
      · intro j hj hne
        rw [rotPos_length] at hj
        by_cases h3 : j = f
        · subst h3
          rw [rotPos_getD_fst hfg (by omega)]
          exact hrest g (by omega) (Ne.symm h2)
        · by_cases h4 : j = g
          · subst h4
            rw [rotPos_getD_snd (by omega)]
            exact neg_mem_oddRange (hrest f (by omega) (Ne.symm h1))
          · rw [rotPos_getD_other h3 h4]
            exact hrest j hj hne

theorem getElem_eq_getD {l : List Int} {i : Nat} (hi : i < l.length) :
    l[i] = l.getD i 0 := by
  rw [List.getD_eq_getElem?_getD, List.getElem?_eq_getElem hi, Option.getD_some]

theorem rotPos_rotPos {f g : Nat} {p : List Int} (hfg : f ≠ g)
    (hf : f < p.length) (hg : g < p.length) :
    rotPos f g (rotPos g f p) = p := by
  have hlen : (rotPos g f p).length = p.length := rotPos_length g f p
  apply List.ext_getElem
  · rw [rotPos_length, hlen]
  · intro j h1 h2
    have hj : j < p.length := h2
    rw [getElem_eq_getD h1, getElem_eq_getD h2]
    by_cases hjf : j = f
    · subst hjf
      rw [rotPos_getD_fst hfg (by rw [hlen]; omega),
        rotPos_getD_fst (Ne.symm hfg) (by omega)]
    · by_cases hjg : j = g
      · subst hjg
        rw [rotPos_getD_snd (by rw [hlen]; omega),
          rotPos_getD_snd (by omega), neg_neg]
      · rw [rotPos_getD_other hjf hjg, rotPos_getD_other hjg hjf]

theorem rotPos_four {f g : Nat} {p : List Int} (hfg : f ≠ g)
    (hf : f < p.length) (hg : g < p.length) :
    rotPos f g (rotPos f g (rotPos f g (rotPos f g p))) = p := by
  have len1 : (rotPos f g p).length = p.length := rotPos_length f g p
  have len2 : (rotPos f g (rotPos f g p)).length = p.length := by
    rw [rotPos_length, len1]
  have len3 : (rotPos f g (rotPos f g (rotPos f g p))).length = p.length := by
    rw [rotPos_length, len2]
  apply List.ext_getElem
  · simp [rotPos_length]
  · intro j h1 h2
    rw [getElem_eq_getD h1, getElem_eq_getD h2]
    by_cases hjf : j = f
    · subst hjf
      rw [rotPos_getD_fst hfg (by omega), rotPos_getD_snd (by omega),
        rotPos_getD_fst hfg (by omega), rotPos_getD_snd (by omega), neg_neg]
    · by_cases hjg : j = g
      · subst hjg
        rw [rotPos_getD_snd (by omega), rotPos_getD_fst hfg (by omega),
          rotPos_getD_snd (by omega), rotPos_getD_fst hfg (by omega), neg_neg]
      · rw [rotPos_getD_other hjf hjg, rotPos_getD_other hjf hjg,
          rotPos_getD_other hjf hjg, rotPos_getD_other hjf hjg]

/-! ## The normalized axes and the window -/

theorem ax_of_nonneg {s : Int} (h : 0 ≤ s) : ax s = s := by
  rw [ax_eq_ite, if_pos h]

theorem ax_of_neg {s : Int} (h : s < 0) : ax s = cpl s := by
  rw [ax_eq_ite, if_neg (by omega)]

theorem normFromTo_cases (src dst : Int) :
    normFromTo src dst = (ax src, ax dst) ∨ normFromTo src dst = (ax dst, ax src) := by
  unfold normFromTo
  by_cases hs : src < 0 <;> by_cases ht : dst < 0
  · left
    rw [if_neg (by simp [hs, ht]), if_pos hs, if_pos ht,
      ax_of_neg hs, ax_of_neg ht]
  · right
    rw [if_pos (by simp [hs, ht]), if_pos hs, if_neg ht,
      ax_of_neg hs, ax_of_nonneg (show (0 : Int) ≤ dst by omega)]
  · right
    rw [if_pos (by simp [hs, ht]), if_neg hs, if_pos ht,
      ax_of_nonneg (show (0 : Int) ≤ src by omega), ax_of_neg ht]
  · left
    rw [if_neg (by simp [hs, ht]), if_neg hs, if_neg ht,
      ax_of_nonneg (show (0 : Int) ≤ src by omega),
      ax_of_nonneg (show (0 : Int) ≤ dst by omega)]

theorem sideCoord_eq_ax (side : Int) (pos : List Int) :
    sideCoord side pos = pos.getD (ax side).toNat 0 := by
  rw [sideCoord]
  by_cases h : side ≥ 0
  · rw [if_pos h, ax_of_nonneg h]
  · rw [if_neg h, ax_of_neg (by omega)]

theorem sideCoord_cpl (side : Int) (pos : List Int) :
    sideCoord (cpl side) pos = sideCoord side pos := by
  rw [sideCoord_eq_ax, sideCoord_eq_ax, ax_cpl]

theorem inWindow_iff (t : SideTurn) (pos : List Int) :
    inWindow t pos ↔ (t.layer_min - 1 ≤ pos.getD (ax t.side).toNat 0 ∧
      pos.getD (ax t.side).toNat 0 ≤ t.layer_max + 1) := by
  rw [inWindow, sideCoord_eq_ax]

theorem inWindow_rotPos {t : SideTurn} {f g : Nat}
    (hf : (ax t.side).toNat ≠ f) (hg : (ax t.side).toNat ≠ g) (pos : List Int) :
    inWindow t (rotPos f g pos) ↔ inWindow t pos := by
  rw [inWindow_iff, inWindow_iff, rotPos_getD_other hf hg]

theorem sideTurnInvalid_iff (t : SideTurn) :
    sideTurnInvalid t ↔
      (ax t.side = ax t.src ∨ ax t.side = ax t.dst ∨ ax t.src = ax t.dst) := by
  rw [sideTurnInvalid]
  simp only [ax_eq_ax_iff]
  tauto

/-! ## The key-set invariant -/

/-- The key-set invariant of a puzzle state: `n ≥ 1`, `d ≥ 1`, and the
sticker map is total over (exactly) the sticker positions. -/
def Puzzle.KeyInv (p : Puzzle) : Prop :=
  1 ≤ p.n ∧ 1 ≤ p.d ∧ ∀ pos, (p.stickers pos).isSome ↔ isSticker p.n p.d pos

theorem make_solved_KeyInv {n : Int} {d : Nat} (hn : 1 ≤ n) (hd : 1 ≤ d) :
    (Puzzle.make_solved n d).KeyInv :=
  ⟨hn, hd, make_solved_support hn hd⟩

theorem Puzzle.KeyInv.closed {p : Puzzle} (h : p.KeyInv) {f g : Nat} (hfg : f ≠ g)
    (hf : f < p.d) (hg : g < p.d) {pos : List Int}
    (hs : (p.stickers pos).isSome) : (p.stickers (rotPos f g pos)).isSome := by
  rw [h.2.2] at hs ⊢
  exact isSticker_rotPos hs hfg hf hg

theorem Puzzle.KeyInv.length {p : Puzzle} (h : p.KeyInv) {pos : List Int}
    (hs : (p.stickers pos).isSome) : pos.length = p.d :=
  ((h.2.2 pos).mp hs).1

/-! ## Structural lemmas about `side_turn` and `puzzle_rotate` -/

theorem side_turn_fst_invalid {p : Puzzle} {t : SideTurn} (hv : sideTurnInvalid t) :
    (p.side_turn t).1 = none := by
  rw [Puzzle.side_turn, if_pos hv]

theorem side_turn_snd_invalid {p : Puzzle} {t : SideTurn} (hv : sideTurnInvalid t) :
    (p.side_turn t).2 = p := by
  rw [Puzzle.side_turn, if_pos hv]

theorem side_turn_fst_valid {p : Puzzle} {t : SideTurn} (hv : ¬ sideTurnInvalid t) :
    (p.side_turn t).1 = some () := by
  rw [Puzzle.side_turn, if_neg hv]

theorem side_turn_stickers {p : Puzzle} {t : SideTurn} (hv : ¬ sideTurnInvalid t)
    (pos : List Int) :
    ((p.side_turn t).2).stickers pos =
      if (p.stickers pos).isSome ∧ inWindow t pos then
        p.stickers (rotPos (normFromTo t.src t.dst).1.toNat
          (normFromTo t.src t.dst).2.toNat pos)
      else p.stickers pos := by
  rw [Puzzle.side_turn, if_neg hv]

theorem side_turn_n (p : Puzzle) (t : SideTurn) : ((p.side_turn t).2).n = p.n := by
  rw [Puzzle.side_turn]; split <;> rfl

theorem side_turn_d (p : Puzzle) (t : SideTurn) : ((p.side_turn t).2).d = p.d := by
  rw [Puzzle.side_turn]; split <;> rfl

theorem puzzle_rotate_fst_invalid {p : Puzzle} {t : PuzzleTurn} (hv : puzzleTurnInvalid t) :
    (p.puzzle_rotate t).1 = none := by
  rw [Puzzle.puzzle_rotate, if_pos hv]

theorem puzzle_rotate_snd_invalid {p : Puzzle} {t : PuzzleTurn} (hv : puzzleTurnInvalid t) :
    (p.puzzle_rotate t).2 = p := by
  rw [Puzzle.puzzle_rotate, if_pos hv]

theorem puzzle_rotate_fst_valid {p : Puzzle} {t : PuzzleTurn} (hv : ¬ puzzleTurnInvalid t) :
    (p.puzzle_rotate t).1 = some () := by
  rw [Puzzle.puzzle_rotate, if_neg hv]

theorem puzzle_rotate_stickers {p : Puzzle} {t : PuzzleTurn} (hv : ¬ puzzleTurnInvalid t)
    (pos : List Int) :
    ((p.puzzle_rotate t).2).stickers pos =
      if (p.stickers pos).isSome then
        p.stickers (rotPos t.src.toNat t.dst.toNat pos)
      else none := by
  rw [Puzzle.puzzle_rotate, if_neg hv]

theorem puzzle_rotate_n (p : Puzzle) (t : PuzzleTurn) : ((p.puzzle_rotate t).2).n = p.n := by
  rw [Puzzle.puzzle_rotate]; split <;> rfl

theorem puzzle_rotate_d (p : Puzzle) (t : PuzzleTurn) : ((p.puzzle_rotate t).2).d = p.d := by
  rw [Puzzle.puzzle_rotate]; split <;> rfl

/-- The five distinctness/range facts about the normalized axis indices
of a structurally valid, in-range side turn. -/
theorem sideTurn_axes {t : SideTurn} {d : Nat} (hv : ¬ sideTurnInvalid t)
    (hside : ax t.side < (d : Int)) (hsrc : ax t.src < (d : Int))
    (hdst : ax t.dst < (d : Int)) :
    (normFromTo t.src t.dst).1.toNat ≠ (normFromTo t.src t.dst).2.toNat ∧
    (normFromTo t.src t.dst).1.toNat < d ∧ (normFromTo t.src t.dst).2.toNat < d ∧
    (ax t.side).toNat ≠ (normFromTo t.src t.dst).1.toNat ∧
    (ax t.side).toNat ≠ (normFromTo t.src t.dst).2.toNat := by
  have h1 := ax_nonneg t.side
  have h2 := ax_nonneg t.src
  have h3 := ax_nonneg t.dst
  rw [sideTurnInvalid_iff] at hv
  push_neg at hv
  rcases normFromTo_cases t.src t.dst with h | h <;> rw [h] <;> dsimp only <;> omega

/-! ## Key-set preservation and the group laws -/

theorem sideTurnInvalid_inverse (t : SideTurn) :
    sideTurnInvalid t.inverse ↔ sideTurnInvalid t := by
  show sideTurnInvalid ⟨t.side, t.layer_min, t.layer_max, t.dst, t.src⟩ ↔ _
  rw [sideTurnInvalid, sideTurnInvalid]
  dsimp only
  unfold cpl
  constructor <;> intro h <;> omega

theorem normFromTo_swap (src dst : Int) :
    normFromTo dst src = ((normFromTo src dst).2, (normFromTo src dst).1) := by
  unfold normFromTo
  by_cases hs : src < 0 <;> by_cases ht : dst < 0 <;> simp [hs, ht]

theorem inWindow_inverse (t : SideTurn) (pos : List Int) :
    inWindow t.inverse pos ↔ inWindow t pos := Iff.rfl

theorem side_turn_KeyInv {p : Puzzle} {t : SideTurn} (h : p.KeyInv)
    (hside : ax t.side < (p.d : Int)) (hsrc : ax t.src < (p.d : Int))
    (hdst : ax t.dst < (p.d : Int)) :
    ((p.side_turn t).2).KeyInv := by
  by_cases hv : sideTurnInvalid t
  · rw [side_turn_snd_invalid hv]; exact h
  · obtain ⟨hfg, hF, hG, _, _⟩ := sideTurn_axes hv hside hsrc hdst
    refine ⟨by rw [side_turn_n]; exact h.1, by rw [side_turn_d]; exact h.2.1, ?_⟩
    intro pos
    rw [side_turn_n, side_turn_d, side_turn_stickers hv]
    by_cases hcond : (p.stickers pos).isSome ∧ inWindow t pos
    · rw [if_pos hcond]
      exact iff_of_true (h.closed hfg hF hG hcond.1) ((h.2.2 pos).mp hcond.1)
    · rw [if_neg hcond]
      exact h.2.2 pos

theorem puzzle_rotate_KeyInv {p : Puzzle} {t : PuzzleTurn} (h : p.KeyInv)
    (hsrc0 : 0 ≤ t.src) (hsrc : t.src < (p.d : Int))
    (hdst0 : 0 ≤ t.dst) (hdst : t.dst < (p.d : Int)) :
    ((p.puzzle_rotate t).2).KeyInv := by
  by_cases hv : puzzleTurnInvalid t
  · rw [puzzle_rotate_snd_invalid hv]; exact h
  · have hfg : t.src.toNat ≠ t.dst.toNat := by
      rw [puzzleTurnInvalid] at hv
      push_neg at hv
      omega
    refine ⟨by rw [puzzle_rotate_n]; exact h.1, by rw [puzzle_rotate_d]; exact h.2.1, ?_⟩
    intro pos
    rw [puzzle_rotate_n, puzzle_rotate_d, puzzle_rotate_stickers hv]
    by_cases hcond : (p.stickers pos).isSome
    · rw [if_pos hcond]
      exact iff_of_true (h.closed hfg (by omega) (by omega) hcond) ((h.2.2 pos).mp hcond)
    · rw [if_neg hcond]
      constructor
      · intro hfalse; simp at hfalse
      · intro hs
        exact absurd ((h.2.2 pos).mpr hs) hcond

/-- Applying a valid in-range side turn and then its inverse restores the
sticker map. -/
theorem side_turn_inv_stickers {p : Puzzle} {t : SideTurn} (h : p.KeyInv)
    (hv : ¬ sideTurnInvalid t)
    (hside : ax t.side < (p.d : Int)) (hsrc : ax t.src < (p.d : Int))
    (hdst : ax t.dst < (p.d : Int)) :
    (((p.side_turn t).2).side_turn t.inverse).2.stickers = p.stickers := by
  obtain ⟨hfg, hF, hG, hsF, hsG⟩ := sideTurn_axes hv hside hsrc hdst
  have hv' : ¬ sideTurnInvalid t.inverse := by
    rw [sideTurnInvalid_inverse]; exact hv
  have hnorm : normFromTo t.inverse.src t.inverse.dst =
      ((normFromTo t.src t.dst).2, (normFromTo t.src t.dst).1) :=
    normFromTo_swap t.src t.dst
  funext pos
  rw [side_turn_stickers hv', hnorm]
  dsimp only
  by_cases hw : inWindow t pos
  · by_cases hsome : (p.stickers pos).isSome
    · have hlen : pos.length = p.d := h.length hsome
      have h1 : ((p.side_turn t).2).stickers pos =
          p.stickers (rotPos (normFromTo t.src t.dst).1.toNat
            (normFromTo t.src t.dst).2.toNat pos) := by
        rw [side_turn_stickers hv, if_pos ⟨hsome, hw⟩]
      have hrsome : (p.stickers (rotPos (normFromTo t.src t.dst).2.toNat
          (normFromTo t.src t.dst).1.toNat pos)).isSome :=
        h.closed (Ne.symm hfg) hG hF hsome
      have hrw : inWindow t (rotPos (normFromTo t.src t.dst).2.toNat
          (normFromTo t.src t.dst).1.toNat pos) := by
        rw [inWindow_rotPos hsG hsF]; exact hw
      have h2 : ((p.side_turn t).2).stickers (rotPos (normFromTo t.src t.dst).2.toNat
          (normFromTo t.src t.dst).1.toNat pos) =
          p.stickers pos := by
        rw [side_turn_stickers hv, if_pos ⟨hrsome, hrw⟩,
          rotPos_rotPos hfg (by omega) (by omega)]
      rw [if_pos ⟨by rw [h1]; exact h.closed hfg hF hG hsome,
        (inWindow_inverse t pos).mpr hw⟩]
      exact h2
    · have hnone : p.stickers pos = none := by
        rwa [Option.isSome_iff_ne_none, not_not] at hsome
      have h1 : ((p.side_turn t).2).stickers pos = p.stickers pos := by
        rw [side_turn_stickers hv, if_neg (by tauto)]
      rw [if_neg (by rw [h1, hnone]; simp)]
      exact h1
  · have h1 : ((p.side_turn t).2).stickers pos = p.stickers pos := by
      rw [side_turn_stickers hv, if_neg (by tauto)]
    rw [if_neg (by rw [inWindow_inverse]; tauto)]
    exact h1

theorem puzzleTurnInvalid_inverse (t : PuzzleTurn) :
    puzzleTurnInvalid t.inverse ↔ puzzleTurnInvalid t := by
  show puzzleTurnInvalid ⟨t.dst, t.src⟩ ↔ _
  rw [puzzleTurnInvalid, puzzleTurnInvalid]
  dsimp only
  unfold cpl
  constructor <;> intro h <;> omega

/-- Applying a valid in-range whole-puzzle rotation and then its inverse
restores the sticker map. -/
theorem puzzle_rotate_inv_stickers {p : Puzzle} {t : PuzzleTurn} (h : p.KeyInv)
    (hv : ¬ puzzleTurnInvalid t)
    (hsrc0 : 0 ≤ t.src) (hsrc : t.src < (p.d : Int))
    (hdst0 : 0 ≤ t.dst) (hdst : t.dst < (p.d : Int)) :
    (((p.puzzle_rotate t).2).puzzle_rotate t.inverse).2.stickers = p.stickers := by
  have hv' : ¬ puzzleTurnInvalid t.inverse := by
    rw [puzzleTurnInvalid_inverse]; exact hv
  have hfg : t.src.toNat ≠ t.dst.toNat := by
    rw [puzzleTurnInvalid] at hv
    push_neg at hv
    omega
  funext pos
  rw [puzzle_rotate_stickers hv']
  show (if (((p.puzzle_rotate t).2).stickers pos).isSome then
      ((p.puzzle_rotate t).2).stickers (rotPos t.dst.toNat t.src.toNat pos) else none) = _
  by_cases hsome : (p.stickers pos).isSome
  · have hlen : pos.length = p.d := h.length hsome
    have h1 : ((p.puzzle_rotate t).2).stickers pos =
        p.stickers (rotPos t.src.toNat t.dst.toNat pos) := by
      rw [puzzle_rotate_stickers hv, if_pos hsome]
    have hrsome : (p.stickers (rotPos t.dst.toNat t.src.toNat pos)).isSome :=
      h.closed (Ne.symm hfg) (by omega) (by omega) hsome
    rw [if_pos (by rw [h1]; exact h.closed hfg (by omega) (by omega) hsome)]
    rw [puzzle_rotate_stickers hv, if_pos hrsome,
      rotPos_rotPos hfg (by omega) (by omega)]
  · have hnone : p.stickers pos = none := by
      rwa [Option.isSome_iff_ne_none, not_not] at hsome
    have h1 : ((p.puzzle_rotate t).2).stickers pos = none := by
      rw [puzzle_rotate_stickers hv, if_neg hsome]
    rw [if_neg (by rw [h1]; simp), hnone]

/-- Iterated closure of the support under the position rotation. -/
theorem Puzzle.KeyInv.closed_iter {p : Puzzle} (h : p.KeyInv) {f g : Nat} (hfg : f ≠ g)
    (hf : f < p.d) (hg : g < p.d) :
    ∀ (k : Nat) {pos : List Int}, (p.stickers pos).isSome →
      (p.stickers ((rotPos f g)^[k] pos)).isSome := by
  intro k
  induction k with
  | zero => intro pos hs; exact hs
  | succ k ih =>
    intro pos hs
    rw [Function.iterate_succ_apply]
    exact ih (h.closed hfg hf hg hs)

theorem inWindow_iter {t : SideTurn} {f g : Nat}
    (hf : (ax t.side).toNat ≠ f) (hg : (ax t.side).toNat ≠ g) :
    ∀ (k : Nat) (pos : List Int), inWindow t ((rotPos f g)^[k] pos) ↔ inWindow t pos := by
  intro k
  induction k with
  | zero => intro pos; exact Iff.rfl
  | succ k ih =>
    intro pos
    rw [Function.iterate_succ_apply, ih, inWindow_rotPos hf hg]

/-- The sticker map after `k` successive applications of one valid
in-range side turn. -/
theorem side_turn_iter_stickers {p : Puzzle} {t : SideTurn} (h : p.KeyInv)
    (hv : ¬ sideTurnInvalid t)
    (hside : ax t.side < (p.d : Int)) (hsrc : ax t.src < (p.d : Int))
    (hdst : ax t.dst < (p.d : Int)) :
    ∀ (k : Nat) (pos : List Int),
      ((fun q : Puzzle => (q.side_turn t).2)^[k] p).stickers pos =
        if (p.stickers pos).isSome ∧ inWindow t pos then
          p.stickers ((rotPos (normFromTo t.src t.dst).1.toNat
            (normFromTo t.src t.dst).2.toNat)^[k] pos)
        else p.stickers pos := by
  obtain ⟨hfg, hF, hG, hsF, hsG⟩ := sideTurn_axes hv hside hsrc hdst
  set F := (normFromTo t.src t.dst).1.toNat with hFdef
  set G := (normFromTo t.src t.dst).2.toNat with hGdef
  intro k
  induction k with
  | zero =>
    intro pos
    split <;> rfl
  | succ k ih =>
    intro pos
    rw [Function.iterate_succ_apply', side_turn_stickers hv pos]
    rw [← hFdef, ← hGdef]
    by_cases hw : inWindow t pos
    · by_cases hsome : (p.stickers pos).isSome
      · have e1 : ((fun q : Puzzle => (q.side_turn t).2)^[k] p).stickers pos =
            p.stickers ((rotPos F G)^[k] pos) := by
          rw [ih pos, if_pos ⟨hsome, hw⟩]
        have hksome : (p.stickers ((rotPos F G)^[k] pos)).isSome :=
          Puzzle.KeyInv.closed_iter h hfg hF hG k hsome
        have e2 : ((fun q : Puzzle => (q.side_turn t).2)^[k] p).stickers (rotPos F G pos) =
            p.stickers ((rotPos F G)^[k] (rotPos F G pos)) := by
          rw [ih (rotPos F G pos),
            if_pos ⟨h.closed hfg hF hG hsome, (inWindow_rotPos hsF hsG pos).mpr hw⟩]
        rw [if_pos ⟨by rw [e1]; exact hksome, hw⟩, e2, if_pos ⟨hsome, hw⟩,
          Function.iterate_succ_apply]
      · have hnone : p.stickers pos = none := by
          rwa [Option.isSome_iff_ne_none, not_not] at hsome
        have e1 : ((fun q : Puzzle => (q.side_turn t).2)^[k] p).stickers pos =
            p.stickers pos := by
          rw [ih pos, if_neg (by tauto)]
        rw [if_neg (by rw [e1, hnone]; simp), e1, if_neg (by tauto)]
    · have e1 : ((fun q : Puzzle => (q.side_turn t).2)^[k] p).stickers pos =
          p.stickers pos := by
        rw [ih pos, if_neg (by tauto)]
      rw [if_neg (by rw [e1]; tauto), e1, if_neg (by tauto)]

/-! ## Piece bodies and their sticker lists -/

theorem set_append_right {A R : List Int} {k : Nat} {v : Int} :
    (A ++ R).set (A.length + k) v = A ++ R.set k v := by
  rw [List.set_append, if_neg (by omega)]
  have h : A.length + k - A.length = k := by omega
  rw [h]

theorem piece_body_of_body {p : Puzzle} {pos : List Int}
    (h : ∀ x ∈ pos, ¬ |x| = p.n) : p.piece_body pos = pos := by
  rw [Puzzle.piece_body]
  have hnone : pos.findIdx? (fun x => |x| = p.n) = none := by
    rw [List.findIdx?_eq_none_iff]
    intro x hx
    simpa using h x hx
  rw [hnone]

theorem pbs_go_skip_noqual {p : Puzzle} {orig : List Int} {A : List Int}
    (hA : ∀ x ∈ A, ¬ (x = p.n - 1 ∨ x = -(p.n - 1))) :
    ∀ (ind : Nat) (rest : List Int),
      p.pbs_go orig ind (A ++ rest) = p.pbs_go orig (ind + A.length) rest := by
  induction A with
  | nil => intro ind rest; simp
  | cons x xs ih =>
    intro ind rest
    rw [List.cons_append, Puzzle.pbs_go, if_neg (hA x (by simp))]
    rw [ih (fun z hz => hA z (by simp [hz])) (ind + 1) rest]
    have h : ind + 1 + xs.length = ind + (x :: xs).length := by simp; omega
    rw [h]

theorem pbs_go_noqual_nil {p : Puzzle} {orig : List Int} {C : List Int}
    (hC : ∀ x ∈ C, ¬ (x = p.n - 1 ∨ x = -(p.n - 1))) (ind : Nat) :
    p.pbs_go orig ind C = some [] := by
  have h := @pbs_go_skip_noqual p orig C hC ind []
  rw [List.append_nil] at h
  rw [h, Puzzle.pbs_go]

theorem pbs_go_cons_qual {p : Puzzle} {orig : List Int} {x : Int} {xs : List Int}
    {ind : Nat} {c : Int} {l : List Int}
    (hq : x = p.n - 1 ∨ x = -(p.n - 1)) (hn1 : p.n ≠ 1)
    (hs : p.stickers (orig.set ind (if x = p.n - 1 then x + 1 else x - 1)) = some c)
    (hrest : p.pbs_go orig (ind + 1) xs = some l) :
    p.pbs_go orig ind (x :: xs) = some (c :: l) := by
  rw [Puzzle.pbs_go, if_pos hq]
  show (match p.stickers (orig.set ind (if x = p.n - 1 then x + 1 else x - 1)),
      p.pbs_go orig (ind + 1) xs with
    | some c, some rest => some ((if p.n = 1 then [c, cpl c] else [c]) ++ rest)
    | _, _ => none) = _
  rw [hs, hrest]
  show some ((if p.n = 1 then [c, cpl c] else [c]) ++ l) = some (c :: l)
  rw [if_neg hn1]
  rfl

theorem countP_one_split {l : List Int} {P : Int → Bool} (h : l.countP P = 1) :
    ∃ B y C, l = B ++ y :: C ∧ P y ∧ (∀ x ∈ B, ¬ P x) ∧ (∀ x ∈ C, ¬ P x) := by
  induction l with
  | nil => simp [List.countP_nil] at h
  | cons x xs ih =>
    by_cases hx : P x
    · have h0 : xs.countP P = 0 := by
        rw [List.countP_cons_of_pos _ _ hx] at h
        omega
      exact ⟨[], x, xs, by simp, hx, by simp, List.countP_eq_zero.mp h0⟩
    · rw [List.countP_cons_of_neg _ _ hx] at h
      obtain ⟨B, y, C, rfl, hy, hB, hC⟩ := ih h
      exact ⟨x :: B, y, C, by simp, hy, by
        intro z hz
        rcases List.mem_cons.mp hz with rfl | hz
        · exact hx
        · exact hB z hz, hC⟩

theorem countP_two_split {l : List Int} {P : Int → Bool} (h : l.countP P = 2) :
    ∃ A y₁ B y₂ C, l = A ++ y₁ :: B ++ y₂ :: C ∧ P y₁ ∧ P y₂ ∧
      (∀ x ∈ A, ¬ P x) ∧ (∀ x ∈ B, ¬ P x) ∧ (∀ x ∈ C, ¬ P x) := by
  induction l with
  | nil => simp [List.countP_nil] at h
  | cons x xs ih =>
    by_cases hx : P x
    · have h1 : xs.countP P = 1 := by
        rw [List.countP_cons_of_pos _ _ hx] at h
        omega
      obtain ⟨B, y, C, rfl, hy, hB, hC⟩ := countP_one_split h1
      exact ⟨[], x, B, y, C, by simp, hx, hy, by simp, hB, hC⟩
    · rw [List.countP_cons_of_neg _ _ hx] at h
      obtain ⟨A, y₁, B, y₂, C, rfl, h1, h2, hA, hB, hC⟩ := ih h
      exact ⟨x :: A, y₁, B, y₂, C, by simp, h1, h2, by
        intro z hz
        rcases List.mem_cons.mp hz with rfl | hz
        · exact hx
        · exact hA z hz, hB, hC⟩

/-- The boundary-shifted position used by `piece_body_stickers`: move the
coordinate at index `i` outward to `±n`. -/
def outShift (n : Int) (pos : List Int) (i : Nat) : List Int :=
  pos.set i (if pos.getD i 0 = n - 1 then pos.getD i 0 + 1 else pos.getD i 0 - 1)

theorem abs_eq_iff_or {x b : Int} (hb : 0 ≤ b) : |x| = b ↔ (x = b ∨ x = -b) :=
  abs_eq hb

/-- Core of the two-boundary body-sticker computation: on a valid body
position with exactly two coordinates at `±(n-1)`, `stickersAt` returns
exactly the two colors stored at the two outward-shifted positions. -/
theorem stickersAt_two_boundary {p : Puzzle} (hK : p.KeyInv) (hn : 2 ≤ p.n)
    {pos : List Int} (hbody : isBody p.n p.d pos)
    (hcount : pos.countP (fun x => decide (|x| = p.n - 1)) = 2) :
    ∃ (i j : Nat) (c₁ c₂ : Int), i < j ∧ j < pos.length ∧
      |pos.getD i 0| = p.n - 1 ∧ |pos.getD j 0| = p.n - 1 ∧
      p.stickers (outShift p.n pos i) = some c₁ ∧
      p.stickers (outShift p.n pos j) = some c₂ ∧
      p.stickersAt pos = some [c₁, c₂] := by
  obtain ⟨A, y₁, B, y₂, C, hpos0, h1, h2, hA, hB, hC⟩ := countP_two_split hcount
  have hpos : pos = A ++ y₁ :: (B ++ y₂ :: C) := by rw [hpos0]; simp
  have hy₁ : |y₁| = p.n - 1 := by simpa using h1
  have hy₂ : |y₂| = p.n - 1 := by simpa using h2
  have hq₁ : y₁ = p.n - 1 ∨ y₁ = -(p.n - 1) := (abs_eq_iff_or (by omega)).mp hy₁
  have hq₂ : y₂ = p.n - 1 ∨ y₂ = -(p.n - 1) := (abs_eq_iff_or (by omega)).mp hy₂
  have hA' : ∀ x ∈ A, ¬ (x = p.n - 1 ∨ x = -(p.n - 1)) := by
    intro x hx
    have := hA x hx
    rw [← abs_eq_iff_or (show (0:Int) ≤ p.n - 1 by omega)]
    simpa using this
  have hB' : ∀ x ∈ B, ¬ (x = p.n - 1 ∨ x = -(p.n - 1)) := by
    intro x hx
    have := hB x hx
    rw [← abs_eq_iff_or (show (0:Int) ≤ p.n - 1 by omega)]
    simpa using this
  have hC' : ∀ x ∈ C, ¬ (x = p.n - 1 ∨ x = -(p.n - 1)) := by
    intro x hx
    have := hC x hx
    rw [← abs_eq_iff_or (show (0:Int) ≤ p.n - 1 by omega)]
    simpa using this
  have hmem : ∀ x ∈ pos, x ∈ oddRange p.n := hbody.2
  have hlen : pos.length = p.d := hbody.1
  have hv₁ : |if y₁ = p.n - 1 then y₁ + 1 else y₁ - 1| = p.n := by
    rcases hq₁ with h | h
    · rw [if_pos h, h, abs_of_nonneg (by omega)]; omega
    · rw [if_neg (by omega), h, abs_of_nonpos (by omega)]; omega
  have hv₂ : |if y₂ = p.n - 1 then y₂ + 1 else y₂ - 1| = p.n := by
    rcases hq₂ with h | h
    · rw [if_pos h, h, abs_of_nonneg (by omega)]; omega
    · rw [if_neg (by omega), h, abs_of_nonpos (by omega)]; omega
  have hgetD_i : pos.getD A.length 0 = y₁ := by
    rw [hpos]; exact getD_append_mid
  have hgetD_j : pos.getD (A.length + 1 + B.length) 0 = y₂ := by
    rw [hpos, getD_append_right (by omega)]
    have h : A.length + 1 + B.length - A.length - 1 = B.length := by omega
    rw [h]
    exact getD_append_mid
  have hset_i : pos.set A.length (if y₁ = p.n - 1 then y₁ + 1 else y₁ - 1) =
      A ++ (if y₁ = p.n - 1 then y₁ + 1 else y₁ - 1) :: (B ++ y₂ :: C) := by
    rw [hpos]
    have h0 : A.length = A.length + 0 := by omega
    rw [h0, set_append_right]
    rfl
  have hset_j : pos.set (A.length + 1 + B.length) (if y₂ = p.n - 1 then y₂ + 1 else y₂ - 1) =
      A ++ y₁ :: (B ++ (if y₂ = p.n - 1 then y₂ + 1 else y₂ - 1) :: C) := by
    rw [hpos]
    have h0 : A.length + 1 + B.length = A.length + (1 + B.length) := by omega
    rw [h0, set_append_right]
    congr 1
    rw [show 1 + B.length = B.length + 1 by omega, List.set_cons_succ]
    congr 1
    have h1 : B.length = B.length + 0 := by omega
    rw [h1, set_append_right]
    rfl
  have hmemA : ∀ x ∈ A, x ∈ oddRange p.n := fun x hx => hmem x (by rw [hpos]; simp [hx])
  have hmemB : ∀ x ∈ B, x ∈ oddRange p.n := fun x hx => hmem x (by rw [hpos]; simp [hx])
  have hmemC : ∀ x ∈ C, x ∈ oddRange p.n := fun x hx => hmem x (by rw [hpos]; simp [hx])
  have hmemy₁ : y₁ ∈ oddRange p.n := hmem y₁ (by rw [hpos]; simp)
  have hmemy₂ : y₂ ∈ oddRange p.n := hmem y₂ (by rw [hpos]; simp)
  have hlend : A.length + 1 + (B.length + 1 + C.length) = p.d := by
    rw [← hlen, hpos]
    simp only [List.length_append, List.length_cons]
    omega
  have hs₁ : isSticker p.n p.d (pos.set A.length
      (if y₁ = p.n - 1 then y₁ + 1 else y₁ - 1)) := by
    rw [hset_i]
    refine isSticker_of_append hmemA ?_ hv₁
      (by simp only [List.length_append, List.length_cons]; omega)
    intro x hx
    rcases List.mem_append.mp hx with hx | hx
    · exact hmemB x hx
    · rcases List.mem_cons.mp hx with rfl | hx
      · exact hmemy₂
      · exact hmemC x hx
  have hs₂ : isSticker p.n p.d (pos.set (A.length + 1 + B.length)
      (if y₂ = p.n - 1 then y₂ + 1 else y₂ - 1)) := by
    rw [hset_j,
      show A ++ y₁ :: (B ++ (if y₂ = p.n - 1 then y₂ + 1 else y₂ - 1) :: C) =
        (A ++ y₁ :: B) ++ (if y₂ = p.n - 1 then y₂ + 1 else y₂ - 1) :: C by simp]
    refine isSticker_of_append ?_ hmemC hv₂
      (by simp only [List.length_append, List.length_cons]; omega)
    intro x hx
    rcases List.mem_append.mp hx with hx | hx
    · exact hmemA x hx
    · rcases List.mem_cons.mp hx with rfl | hx
      · exact hmemy₁
      · exact hmemB x hx
  obtain ⟨c₁, hc₁⟩ := Option.isSome_iff_exists.mp ((hK.2.2 _).mpr hs₁)
  obtain ⟨c₂, hc₂⟩ := Option.isSome_iff_exists.mp ((hK.2.2 _).mpr hs₂)
  have hnot1 : p.n ≠ 1 := by omega
  refine ⟨A.length, A.length + 1 + B.length, c₁, c₂, by omega,
    by rw [hpos]; simp only [List.length_append, List.length_cons]; omega,
    by rw [hgetD_i]; exact hy₁, by rw [hgetD_j]; exact hy₂, ?_, ?_, ?_⟩
  · rw [outShift, hgetD_i]; exact hc₁
  · rw [outShift, hgetD_j]; exact hc₂
  · have hbound : ∀ x ∈ pos, ¬ |x| = p.n := by
      intro x hx
      have := abs_of_mem_oddRange (hmem x hx)
      omega
    rw [Puzzle.stickersAt, piece_body_of_body hbound, Puzzle.piece_body_stickers]
    rw [hpos] at hc₁ hc₂ ⊢
    rw [pbs_go_skip_noqual hA', Nat.zero_add]
    have hrest₂ : p.pbs_go (A ++ y₁ :: (B ++ y₂ :: C)) (A.length + 1 + B.length + 1) C =
        some [] := pbs_go_noqual_nil hC' _
    have hstep₂ : p.pbs_go (A ++ y₁ :: (B ++ y₂ :: C)) (A.length + 1 + B.length)
        (y₂ :: C) = some [c₂] :=
      pbs_go_cons_qual hq₂ hnot1 hc₂ hrest₂
    have hrest₁ : p.pbs_go (A ++ y₁ :: (B ++ y₂ :: C)) (A.length + 1) (B ++ y₂ :: C) =
        some [c₂] := by
      rw [pbs_go_skip_noqual hB']
      exact hstep₂
    exact pbs_go_cons_qual hq₁ hnot1 hc₁ hrest₁

/-! ## Cells of the layout -/

/-- A cell of the net: length `d`, all coordinates on the slice grid, at
most one boundary coordinate.  These are exactly the position vectors the
layout generator keeps. -/
def isCell (n : Int) (d : Nat) (p : List Int) : Prop :=
  p.length = d ∧ (∀ x ∈ p, x ∈ iList n) ∧
    p.countP (fun x => decide (|x| = n)) ≤ 1

theorem mem_iList {x n : Int} : x ∈ iList n ↔ (x = -n ∨ x ∈ oddRange n ∨ x = n) := by
  simp [iList]

theorem mem_iList_not_boundary {x n : Int} (hn : 1 ≤ n) (hx : x ∈ iList n)
    (hnb : ¬ (|x| = n)) : x ∈ oddRange n := by
  rcases mem_iList.mp hx with h | h | h
  · exfalso; apply hnb; rw [h, abs_neg]; exact abs_of_nonneg (by omega)
  · exact h
  · exfalso; apply hnb; rw [h]; exact abs_of_nonneg (by omega)

theorem isCell_iff_sticker_or_body {n : Int} {d : Nat} {p : List Int} (hn : 1 ≤ n) :
    isCell n d p ↔ (isSticker n d p ∨ isBody n d p) := by
  constructor
  · rintro ⟨hlen, hall, hcnt⟩
    rcases Nat.lt_or_ge (p.countP (fun x => decide (|x| = n))) 1 with h0 | h1
    · right
      refine ⟨hlen, ?_⟩
      intro x hx
      have hnb : ¬ (decide (|x| = n) = true) :=
        List.countP_eq_zero.mp
          (show p.countP (fun x => decide (|x| = n)) = 0 by omega) x hx
      exact mem_iList_not_boundary hn (hall x hx) (by simpa using hnb)
    · left
      have hcnt1 : p.countP (fun x => decide (|x| = n)) = 1 := by omega
      obtain ⟨B, y, C, hp, hy, hB, hC⟩ := countP_one_split hcnt1
      subst hp
      have hyabs : |y| = n := by simpa using hy
      refine isSticker_of_append ?_ ?_ hyabs
        (by simp only [List.length_append, List.length_cons] at hlen; omega)
      · intro x hx
        exact mem_iList_not_boundary hn (hall x (by simp [hx]))
          (by simpa using hB x hx)
      · intro x hx
        exact mem_iList_not_boundary hn (hall x (by simp [hx]))
          (by simpa using hC x hx)
  · rintro (hs | hb)
    · obtain ⟨a, y, b, hp, hlen, hy, ha, hb⟩ := isSticker_elim hs
      subst hp
      refine ⟨by simp only [List.length_append, List.length_cons]; omega, ?_, ?_⟩
      · intro x hx
        rcases List.mem_append.mp hx with hx | hx
        · exact mem_iList.mpr (Or.inr (Or.inl (ha x hx)))
        · rcases List.mem_cons.mp hx with hx | hx
          · rcases abs_cases y with ⟨h1, _⟩ | ⟨h1, _⟩
            · exact mem_iList.mpr (Or.inr (Or.inr (by omega)))
            · exact mem_iList.mpr (Or.inl (by omega))
          · exact mem_iList.mpr (Or.inr (Or.inl (hb x hx)))
      · rw [List.countP_append, List.countP_cons_of_pos _ _ (by simpa using hy)]
        have hA0 : a.countP (fun x => decide (|x| = n)) = 0 :=
          List.countP_eq_zero.mpr (fun x hx => by
            have := abs_of_mem_oddRange (ha x hx)
            simp only [decide_eq_true_eq]
            omega)
        have hB0 : b.countP (fun x => decide (|x| = n)) = 0 :=
          List.countP_eq_zero.mpr (fun x hx => by
            have := abs_of_mem_oddRange (hb x hx)
            simp only [decide_eq_true_eq]
            omega)
        omega
    · obtain ⟨hlen, hall⟩ := hb
      refine ⟨hlen, ?_, ?_⟩
      · intro x hx
        exact mem_iList.mpr (Or.inr (Or.inl (hall x hx)))
      · have h0 : p.countP (fun x => decide (|x| = n)) = 0 :=
          List.countP_eq_zero.mpr (fun x hx => by
            have := abs_of_mem_oddRange (hall x hx)
            simp only [decide_eq_true_eq]
            omega)
        omega

theorem isCell_snoc {n : Int} {d : Nat} {p : List Int} :
    isCell n (d + 1) p ↔ ∃ q i, isCell n d q ∧ i ∈ iList n ∧ p = q ++ [i] ∧
      (q ++ [i]).countP (fun x => decide (|x| = n)) ≤ 1 := by
  constructor
  · rintro ⟨hlen, hall, hcnt⟩
    have hne : p ≠ [] := by
      intro h; rw [h] at hlen; simp at hlen
    refine ⟨p.dropLast, p.getLast hne, ⟨?_, ?_, ?_⟩, ?_, ?_, ?_⟩
    · rw [List.length_dropLast, hlen]
      omega
    · intro x hx
      exact hall x (List.mem_of_mem_dropLast hx)
    · exact le_trans (List.Sublist.countP_le _ (List.dropLast_sublist p)) hcnt
    · exact hall _ (List.getLast_mem hne)
    · rw [List.dropLast_concat_getLast hne]
    · rw [List.dropLast_concat_getLast hne]
      exact hcnt
  · rintro ⟨q, i, ⟨hlen, hall, _⟩, hi, rfl, hcnt⟩
    refine ⟨by simp [hlen], ?_, hcnt⟩
    intro x hx
    rcases List.mem_append.mp hx with hx | hx
    · exact hall x hx
    · rcases List.mem_singleton.mp hx with rfl
      exact hi

/-! ## Geometry and uniqueness invariants of layouts -/

theorem le_foldl_max (xs : List Int) (a : Int) :
    a ≤ xs.foldl max a ∧ ∀ x ∈ xs, x ≤ xs.foldl max a := by
  induction xs generalizing a with
  | nil => exact ⟨le_refl a, by simp⟩
  | cons b bs ih =>
    obtain ⟨h1, h2⟩ := ih (max a b)
    refine ⟨le_trans (le_max_left a b) h1, ?_⟩
    intro x hx
    rcases List.mem_cons.mp hx with rfl | hx
    · exact le_trans (le_max_right a x) h1
    · exact h2 x hx

theorem foldl_min_le (xs : List Int) (a : Int) :
    xs.foldl min a ≤ a ∧ ∀ x ∈ xs, xs.foldl min a ≤ x := by
  induction xs generalizing a with
  | nil => exact ⟨le_refl a, by simp⟩
  | cons b bs ih =>
    obtain ⟨h1, h2⟩ := ih (min a b)
    refine ⟨le_trans h1 (min_le_left a b), ?_⟩
    intro x hx
    rcases List.mem_cons.mp hx with rfl | hx
    · exact le_trans h1 (min_le_right a x)
    · exact h2 x hx

theorem le_maxOr {l : List Int} {a : Int} (ha : a ∈ l) (dflt : Int) :
    a ≤ maxOr l dflt := by
  cases l with
  | nil => simp at ha
  | cons x xs =>
    rcases List.mem_cons.mp ha with rfl | ha
    · exact (le_foldl_max xs a).1
    · exact (le_foldl_max xs x).2 a ha

theorem minOr_le {l : List Int} {a : Int} (ha : a ∈ l) (dflt : Int) :
    minOr l dflt ≤ a := by
  cases l with
  | nil => simp at ha
  | cons x xs =>
    rcases List.mem_cons.mp ha with rfl | ha
    · exact (foldl_min_le xs a).1
    · exact (foldl_min_le xs x).2 a ha

theorem le_foldl_min {xs : List Int} {c : Int} (h : ∀ x ∈ xs, c ≤ x) :
    ∀ a : Int, c ≤ a → c ≤ xs.foldl min a := by
  induction xs with
  | nil => intro a ha; exact ha
  | cons b bs ih =>
    intro a ha
    exact ih (fun y hy => h y (by simp [hy])) (min a b) (le_min ha (h b (by simp)))

theorem minOr_ge {l : List Int} {c dflt : Int} (h : ∀ x ∈ l, c ≤ x)
    (hd : c ≤ dflt) : c ≤ minOr l dflt := by
  cases l with
  | nil => exact hd
  | cons x xs =>
    exact le_foldl_min (fun y hy => h y (by simp [hy])) x (h x (by simp))

theorem minOr_le_ub {l : List Int} {c dflt : Int} (h : ∀ x ∈ l, x ≤ c)
    (hd : dflt ≤ c) : minOr l dflt ≤ c := by
  cases l with
  | nil => exact hd
  | cons x xs => exact le_trans (minOr_le (by simp) dflt) (h x (by simp))

theorem foldl_max_le {xs : List Int} {c : Int} (h : ∀ x ∈ xs, x ≤ c) :
    ∀ a : Int, a ≤ c → xs.foldl max a ≤ c := by
  induction xs with
  | nil => intro a ha; exact ha
  | cons b bs ih =>
    intro a ha
    exact ih (fun y hy => h y (by simp [hy])) (max a b) (max_le ha (h b (by simp)))

theorem maxOr_le {l : List Int} {c dflt : Int} (h : ∀ x ∈ l, x ≤ c)
    (hd : dflt ≤ c) : maxOr l dflt ≤ c := by
  cases l with
  | nil => exact hd
  | cons x xs =>
    exact foldl_max_le (fun y hy => h y (by simp [hy])) x (h x (by simp))

theorem maxOr_ge_dflt {l : List Int} {c dflt : Int} (h : ∀ x ∈ l, c ≤ x)
    (hd : c ≤ dflt) : c ≤ maxOr l dflt := by
  cases l with
  | nil => exact hd
  | cons x xs => exact le_trans (h x (by simp)) (le_maxOr (by simp) dflt)

theorem wrapI16_eq_self {x : Int} (h1 : -32768 ≤ x) (h2 : x ≤ 32767) :
    wrapI16 x = x := by
  unfold wrapI16; omega

theorem wrapU16_eq_self {x : Int} (h1 : 0 ≤ x) (h2 : x ≤ 65535) :
    wrapU16 x = x := by
  unfold wrapU16; omega

theorem sum_map_le_length_mul {α : Type} (l : List α) (f : α → Int) (c : Int)
    (h : ∀ x ∈ l, f x ≤ c) : (l.map f).sum ≤ (l.length : Int) * c := by
  induction l with
  | nil => simp
  | cons a as ih =>
    have h1 := h a (by simp)
    have h2 := ih (fun x hx => h x (by simp [hx]))
    rw [List.map_cons, List.sum_cons, List.length_cons]
    have h3 : ((as.length + 1 : Nat) : Int) * c = (as.length : Int) * c + c := by
      push_cast; ring
    rw [h3]
    omega

theorem sum_map_nonneg {α : Type} (l : List α) (f : α → Int)
    (h : ∀ x ∈ l, 0 ≤ f x) : 0 ≤ (l.map f).sum := by
  induction l with
  | nil => simp
  | cons a as ih =>
    have h1 := h a (by simp)
    have h2 := ih (fun x hx => h x (by simp [hx]))
    rw [List.map_cons, List.sum_cons]
    omega

/-- All points lie in the rectangle `[0, width) × [0, height)`. -/
def Layout.InBounds (l : Layout) : Prop :=
  ∀ e ∈ l.points, 0 ≤ e.1.1 ∧ e.1.1 < l.width ∧ 0 ≤ e.1.2 ∧ e.1.2 < l.height

/-- The well-formedness bundle maintained by the layout generator. -/
def Layout.Good (l : Layout) : Prop :=
  l.InBounds ∧ 0 ≤ l.width ∧ 0 ≤ l.height ∧
    (l.points.map (fun e => e.1)).Nodup ∧ l.posList.Nodup

theorem posList_push_all (l : Layout) (x : Int) :
    (l.push_all x).posList = l.posList.map (fun v => v ++ [x]) := by
  simp [Layout.push_all, Layout.posList, List.map_map]

theorem map_snd_filter_snd {α β : Type} (P : β → Bool) (l : List (α × β)) :
    (l.filter (fun e => P e.2)).map (fun e => e.2) =
      (l.map (fun e => e.2)).filter P := by
  induction l with
  | nil => rfl
  | cons e es ih =>
    by_cases h : P e.2
    · rw [List.filter_cons_of_pos (by simpa using h), List.map_cons, List.map_cons,
        List.filter_cons_of_pos (by simpa using h), ih]
    · rw [List.filter_cons_of_neg (by simpa using h), List.map_cons,
        List.filter_cons_of_neg (by simpa using h), ih]

theorem posList_clean (l : Layout) (n : Int) :
    (l.clean n).posList =
      l.posList.filter (fun v => decide (v.countP (fun x => decide (|x| = n)) ≤ 1)) := by
  rw [Layout.posList, Layout.posList, Layout.clean]
  dsimp only
  exact map_snd_filter_snd
    (fun v => decide (v.countP (fun x => decide (|x| = n)) ≤ 1)) l.points

theorem posList_move_right (l : Layout) (s : Int) :
    (l.move_right s).posList = l.posList := by
  simp [Layout.move_right, Layout.posList, List.map_map]

theorem posList_move_down (l : Layout) (s : Int) :
    (l.move_down s).posList = l.posList := by
  simp [Layout.move_down, Layout.posList, List.map_map]

theorem posList_squish_horiz (l : Layout) : (l.squish_horiz).posList = l.posList := by
  have h1 : (l.squish_horiz).posList = (l.squish_left).posList := rfl
  rw [h1, Layout.squish_left, posList_move_right]

theorem posList_squish_vert (l : Layout) : (l.squish_vert).posList = l.posList := by
  have h1 : (l.squish_vert).posList = (l.squish_top).posList := rfl
  rw [h1, Layout.squish_top, posList_move_down]

theorem posList_union (l m : Layout) :
    (l.union m).posList = m.posList ++ l.posList := by
  simp [Layout.union, Layout.posList]

theorem posList_join_horiz (l m : Layout) (gap : Int) :
    (l.join_horiz m gap).posList = m.posList ++ l.posList := by
  rw [Layout.join_horiz, posList_union, posList_move_right]

theorem posList_join_vert (l m : Layout) (gap : Int) :
    (l.join_vert m gap).posList = m.posList ++ l.posList := by
  rw [Layout.join_vert, posList_union, posList_move_down]

theorem posList_layoutSlice (lower : Layout) (n : Int) (d : Nat) (i : Int) :
    (layoutSlice lower n d i).posList =
      (lower.posList.map (fun v => v ++ [i])).filter
        (fun v => decide (v.countP (fun x => decide (|x| = n)) ≤ 1)) := by
  rw [layoutSlice]
  show (if |i| = n then
      (if d % 2 = 1 then ((lower.push_all i).clean n).squish_horiz
       else ((lower.push_all i).clean n).squish_vert)
    else (lower.push_all i).clean n).posList = _
  split
  · split
    · rw [posList_squish_horiz, posList_clean, posList_push_all]
    · rw [posList_squish_vert, posList_clean, posList_push_all]
  · rw [posList_clean, posList_push_all]

theorem keyList_push_all (l : Layout) (x : Int) :
    (l.push_all x).points.map (fun e => e.1) = l.points.map (fun e => e.1) := by
  simp [Layout.push_all, List.map_map]

theorem push_all_good {l : Layout} (h : l.Good) (x : Int) : (l.push_all x).Good := by
  obtain ⟨hb, hw, hh, hk, hv⟩ := h
  refine ⟨?_, hw, hh, ?_, ?_⟩
  · intro e he
    obtain ⟨e₀, he₀, rfl⟩ := List.mem_map.mp he
    exact hb e₀ he₀
  · rw [keyList_push_all]; exact hk
  · rw [posList_push_all]
    exact hv.map (fun a b hab => List.append_cancel_right hab)

theorem clean_good {l : Layout} (h : l.Good) (n : Int) : (l.clean n).Good := by
  obtain ⟨hb, hw, hh, hk, hv⟩ := h
  refine ⟨?_, hw, hh, ?_, ?_⟩
  · intro e he
    exact hb e (List.mem_of_mem_filter he)
  · exact ((List.filter_sublist _).map _).nodup hk
  · rw [posList_clean]
    exact (List.filter_sublist _).nodup hv

theorem squish_horiz_good {l : Layout}
    (hX : ∀ e ∈ l.points, 0 ≤ e.1.1 ∧ e.1.1 < l.width)
    (hY : ∀ e ∈ l.points, 0 ≤ e.1.2 ∧ e.1.2 < l.height)
    (hw0 : 0 ≤ l.width) (hw32 : l.width ≤ 32767) (hh : 0 ≤ l.height)
    (hk : (l.points.map (fun e => e.1)).Nodup) (hv : l.posList.Nodup) :
    (l.squish_horiz).Good ∧ (l.squish_horiz).width ≤ l.width ∧
      (l.squish_horiz).height = l.height := by
  set m : Int := minOr (l.points.map (fun e => e.1.1)) 0 with hm
  have hm0 : 0 ≤ m := by
    rw [hm]
    refine minOr_ge ?_ (le_refl 0)
    intro x hx
    obtain ⟨e, he, rfl⟩ := List.mem_map.mp hx
    exact (hX e he).1
  have hmle : ∀ e ∈ l.points, m ≤ e.1.1 := by
    intro e he
    rw [hm]
    exact minOr_le (List.mem_map.mpr ⟨e, he, rfl⟩) 0
  have hm32 : m ≤ 32767 := by
    rw [hm]
    refine minOr_le_ub ?_ (by omega)
    intro x hx
    obtain ⟨e, he, rfl⟩ := List.mem_map.mp hx
    have := hX e he
    omega
  have hsid : wrapI16 (-m) = -m := wrapI16_eq_self (by omega) (by omega)
  have hpts1 : (l.squish_left).points =
      l.points.map (fun e => ((e.1.1 - m, e.1.2), e.2)) := by
    show l.points.map (fun e => ((wrapI16 (e.1.1 + wrapI16 (-m)), e.1.2), e.2)) = _
    refine List.map_congr_left ?_
    intro e he
    have hb := hX e he
    have h1 := hmle e he
    rw [hsid, wrapI16_eq_self (show (-32768 : Int) ≤ e.1.1 + -m by omega)
      (show e.1.1 + -m ≤ 32767 by omega)]
    have h2 : e.1.1 + -m = e.1.1 - m := by omega
    rw [h2]
  have hht : (l.squish_horiz).height = l.height := rfl
  have hpts : (l.squish_horiz).points =
      l.points.map (fun e => ((e.1.1 - m, e.1.2), e.2)) := hpts1
  have hwd0 : (l.squish_horiz).width =
      wrapU16 (wrapI16 (maxOr ((l.points.map (fun e => ((e.1.1 - m, e.1.2), e.2))).map
        (fun e => e.1.1)) (-1) + 1)) := by
    show wrapU16 (wrapI16 (maxOr ((l.squish_left).points.map (fun e => e.1.1)) (-1) + 1)) = _
    rw [hpts1]
  have hMub : maxOr ((l.points.map (fun e => ((e.1.1 - m, e.1.2), e.2))).map
      (fun e => e.1.1)) (-1) ≤ l.width - 1 := by
    refine maxOr_le ?_ (by omega)
    intro x hx
    rw [List.map_map] at hx
    obtain ⟨e, he, rfl⟩ := List.mem_map.mp hx
    have hb := hX e he
    have h1 := hmle e he
    show e.1.1 - m ≤ l.width - 1
    omega
  have hMge : (-1 : Int) ≤ maxOr ((l.points.map (fun e => ((e.1.1 - m, e.1.2), e.2))).map
      (fun e => e.1.1)) (-1) := by
    refine maxOr_ge_dflt ?_ (le_refl (-1))
    intro x hx
    rw [List.map_map] at hx
    obtain ⟨e, he, rfl⟩ := List.mem_map.mp hx
    have hb := hX e he
    have h1 := hmle e he
    show (-1 : Int) ≤ e.1.1 - m
    omega
  have hwd : (l.squish_horiz).width =
      maxOr ((l.points.map (fun e => ((e.1.1 - m, e.1.2), e.2))).map
        (fun e => e.1.1)) (-1) + 1 := by
    rw [hwd0, wrapI16_eq_self (by omega) (by omega), wrapU16_eq_self (by omega) (by omega)]
  refine ⟨⟨?_, ?_, by rw [hht]; exact hh, ?_, ?_⟩, by rw [hwd]; omega, hht⟩
  · intro e he
    rw [hpts] at he
    obtain ⟨e₀, he₀, rfl⟩ := List.mem_map.mp he
    have h1 := hmle e₀ he₀
    have hb := hX e₀ he₀
    have hyb := hY e₀ he₀
    have hmax : e₀.1.1 - m ≤ maxOr ((l.points.map
        (fun e => ((e.1.1 - m, e.1.2), e.2))).map (fun e => e.1.1)) (-1) := by
      apply le_maxOr
      rw [List.map_map]
      exact List.mem_map.mpr ⟨e₀, he₀, rfl⟩
    refine ⟨?_, ?_, ?_, ?_⟩
    · show 0 ≤ e₀.1.1 - m
      omega
    · show e₀.1.1 - m < (l.squish_horiz).width
      rw [hwd]; omega
    · show 0 ≤ e₀.1.2
      exact hyb.1
    · show e₀.1.2 < (l.squish_horiz).height
      rw [hht]; exact hyb.2
  · rw [hwd]; omega
  · rw [hpts, List.map_map]
    have hcomp : ((fun e : (Int × Int) × List Int => e.1) ∘
        (fun e : (Int × Int) × List Int => ((e.1.1 - m, e.1.2), e.2))) =
        ((fun xy : Int × Int => (xy.1 - m, xy.2)) ∘ (fun e => e.1)) := rfl
    rw [hcomp, ← List.map_map]
    refine List.Nodup.map ?_ hk
    intro a b hab
    have hab' : (a.1 - m, a.2) = (b.1 - m, b.2) := hab
    rw [Prod.mk.injEq] at hab'
    exact Prod.ext (by omega) hab'.2
  · have h5 : (l.squish_horiz).posList = l.posList := posList_squish_horiz l
    rw [h5]
    exact hv

theorem squish_vert_good {l : Layout}
    (hX : ∀ e ∈ l.points, 0 ≤ e.1.1 ∧ e.1.1 < l.width)
    (hY : ∀ e ∈ l.points, 0 ≤ e.1.2 ∧ e.1.2 < l.height)
    (hw : 0 ≤ l.width) (hh0 : 0 ≤ l.height) (hh32 : l.height ≤ 32767)
    (hk : (l.points.map (fun e => e.1)).Nodup) (hv : l.posList.Nodup) :
    (l.squish_vert).Good ∧ (l.squish_vert).height ≤ l.height ∧
      (l.squish_vert).width = l.width := by
  set m : Int := minOr (l.points.map (fun e => e.1.2)) 0 with hm
  have hm0 : 0 ≤ m := by
    rw [hm]
    refine minOr_ge ?_ (le_refl 0)
    intro x hx
    obtain ⟨e, he, rfl⟩ := List.mem_map.mp hx
    exact (hY e he).1
  have hmle : ∀ e ∈ l.points, m ≤ e.1.2 := by
    intro e he
    rw [hm]
    exact minOr_le (List.mem_map.mpr ⟨e, he, rfl⟩) 0
  have hm32 : m ≤ 32767 := by
    rw [hm]
    refine minOr_le_ub ?_ (by omega)
    intro x hx
    obtain ⟨e, he, rfl⟩ := List.mem_map.mp hx
    have := hY e he
    omega
  have hsid : wrapI16 (-m) = -m := wrapI16_eq_self (by omega) (by omega)
  have hpts1 : (l.squish_top).points =
      l.points.map (fun e => ((e.1.1, e.1.2 - m), e.2)) := by
    show l.points.map (fun e => ((e.1.1, wrapI16 (e.1.2 + wrapI16 (-m))), e.2)) = _
    refine List.map_congr_left ?_
    intro e he
    have hb := hY e he
    have h1 := hmle e he
    rw [hsid, wrapI16_eq_self (show (-32768 : Int) ≤ e.1.2 + -m by omega)
      (show e.1.2 + -m ≤ 32767 by omega)]
    have h2 : e.1.2 + -m = e.1.2 - m := by omega
    rw [h2]
  have hwt : (l.squish_vert).width = l.width := rfl
  have hpts : (l.squish_vert).points =
      l.points.map (fun e => ((e.1.1, e.1.2 - m), e.2)) := hpts1
  have hht0 : (l.squish_vert).height =
      wrapU16 (wrapI16 (maxOr ((l.points.map (fun e => ((e.1.1, e.1.2 - m), e.2))).map
        (fun e => e.1.2)) (-1) + 1)) := by
    show wrapU16 (wrapI16 (maxOr ((l.squish_top).points.map (fun e => e.1.2)) (-1) + 1)) = _
    rw [hpts1]
  have hMub : maxOr ((l.points.map (fun e => ((e.1.1, e.1.2 - m), e.2))).map
      (fun e => e.1.2)) (-1) ≤ l.height - 1 := by
    refine maxOr_le ?_ (by omega)
    intro x hx
    rw [List.map_map] at hx
    obtain ⟨e, he, rfl⟩ := List.mem_map.mp hx
    have hb := hY e he
    have h1 := hmle e he
    show e.1.2 - m ≤ l.height - 1
    omega
  have hMge : (-1 : Int) ≤ maxOr ((l.points.map (fun e => ((e.1.1, e.1.2 - m), e.2))).map
      (fun e => e.1.2)) (-1) := by
    refine maxOr_ge_dflt ?_ (le_refl (-1))
    intro x hx
    rw [List.map_map] at hx
    obtain ⟨e, he, rfl⟩ := List.mem_map.mp hx
    have hb := hY e he
    have h1 := hmle e he
    show (-1 : Int) ≤ e.1.2 - m
    omega
  have hht : (l.squish_vert).height =
      maxOr ((l.points.map (fun e => ((e.1.1, e.1.2 - m), e.2))).map
        (fun e => e.1.2)) (-1) + 1 := by
    rw [hht0, wrapI16_eq_self (by omega) (by omega), wrapU16_eq_self (by omega) (by omega)]
  refine ⟨⟨?_, by rw [hwt]; exact hw, ?_, ?_, ?_⟩, by rw [hht]; omega, hwt⟩
  · intro e he
    rw [hpts] at he
    obtain ⟨e₀, he₀, rfl⟩ := List.mem_map.mp he
    have h1 := hmle e₀ he₀
    have hb := hY e₀ he₀
    have hxb := hX e₀ he₀
    have hmax : e₀.1.2 - m ≤ maxOr ((l.points.map
        (fun e => ((e.1.1, e.1.2 - m), e.2))).map (fun e => e.1.2)) (-1) := by
      apply le_maxOr
      rw [List.map_map]
      exact List.mem_map.mpr ⟨e₀, he₀, rfl⟩
    refine ⟨?_, ?_, ?_, ?_⟩
    · show 0 ≤ e₀.1.1
      exact hxb.1
    · show e₀.1.1 < (l.squish_vert).width
      rw [hwt]; exact hxb.2
    · show 0 ≤ e₀.1.2 - m
      omega
    · show e₀.1.2 - m < (l.squish_vert).height
      rw [hht]; omega
  · rw [hht]; omega
  · rw [hpts, List.map_map]
    have hcomp : ((fun e : (Int × Int) × List Int => e.1) ∘
        (fun e : (Int × Int) × List Int => ((e.1.1, e.1.2 - m), e.2))) =
        ((fun xy : Int × Int => (xy.1, xy.2 - m)) ∘ (fun e => e.1)) := rfl
    rw [hcomp, ← List.map_map]
    refine List.Nodup.map ?_ hk
    intro a b hab
    have hab' : (a.1, a.2 - m) = (b.1, b.2 - m) := hab
    rw [Prod.mk.injEq] at hab'
    exact Prod.ext hab'.1 (by omega)
  · have h5 : (l.squish_vert).posList = l.posList := posList_squish_vert l
    rw [h5]
    exact hv

theorem hint_filterMap_points (l : Layout) (h : List ((Int × Int) × Option Int)) :
    ({ l with keybind_hints := h } : Layout).points = l.points := rfl

theorem layoutSlice_good {lower : Layout} (h : lower.Good)
    (hw32 : lower.width ≤ 32767) (hh32 : lower.height ≤ 32767)
    (n : Int) (d : Nat) (i : Int) :
    (layoutSlice lower n d i).Good ∧
    (layoutSlice lower n d i).width ≤ lower.width ∧
    (layoutSlice lower n d i).height ≤ lower.height := by
  have h₁ : ((lower.push_all i).clean n).Good := clean_good (push_all_good h i) n
  obtain ⟨hb₁, hw₁, hh₁, hk₁, hv₁⟩ := h₁
  have hgood : (if |i| = n then
      (if d % 2 = 1 then ((lower.push_all i).clean n).squish_horiz
       else ((lower.push_all i).clean n).squish_vert)
    else (lower.push_all i).clean n).Good ∧
    (if |i| = n then
      (if d % 2 = 1 then ((lower.push_all i).clean n).squish_horiz
       else ((lower.push_all i).clean n).squish_vert)
    else (lower.push_all i).clean n).width ≤ lower.width ∧
    (if |i| = n then
      (if d % 2 = 1 then ((lower.push_all i).clean n).squish_horiz
       else ((lower.push_all i).clean n).squish_vert)
    else (lower.push_all i).clean n).height ≤ lower.height := by
    by_cases hin : |i| = n
    · rw [if_pos hin]
      by_cases hd2 : d % 2 = 1
      · rw [if_pos hd2]
        obtain ⟨hg, hwle, hhe⟩ := squish_horiz_good
          (fun e he => ⟨(hb₁ e he).1, (hb₁ e he).2.1⟩)
          (fun e he => ⟨(hb₁ e he).2.2.1, (hb₁ e he).2.2.2⟩)
          hw₁ hw32 hh₁ hk₁ hv₁
        exact ⟨hg, hwle, le_of_eq hhe⟩
      · rw [if_neg hd2]
        obtain ⟨hg, hhle, hwe⟩ := squish_vert_good
          (fun e he => ⟨(hb₁ e he).1, (hb₁ e he).2.1⟩)
          (fun e he => ⟨(hb₁ e he).2.2.1, (hb₁ e he).2.2.2⟩)
          hw₁ hh₁ hh32 hk₁ hv₁
        exact ⟨hg, le_of_eq hwe, hhle⟩
    · rw [if_neg hin]
      exact ⟨⟨hb₁, hw₁, hh₁, hk₁, hv₁⟩, le_refl _, le_refl _⟩
  obtain ⟨⟨hb, hw, hh, hk, hv⟩, hwle, hhle⟩ := hgood
  exact ⟨⟨hb, hw, hh, hk, hv⟩, hwle, hhle⟩

theorem layoutSlice_posList_mem (lower : Layout) (n : Int) (d : Nat) (i : Int)
    (p : List Int) :
    p ∈ (layoutSlice lower n d i).posList ↔
      ∃ q ∈ lower.posList, p = q ++ [i] ∧
        p.countP (fun x => decide (|x| = n)) ≤ 1 := by
  rw [posList_layoutSlice, List.mem_filter]
  constructor
  · rintro ⟨hmem, hcnt⟩
    obtain ⟨q, hq, rfl⟩ := List.mem_map.mp hmem
    exact ⟨q, hq, rfl, by simpa using hcnt⟩
  · rintro ⟨q, hq, rfl, hcnt⟩
    exact ⟨List.mem_map.mpr ⟨q, hq, rfl⟩, by simpa using hcnt⟩

theorem union_good {a b : Layout} (ha : a.Good) (hb : b.Good)
    (hkdisj : ∀ k ∈ b.points.map (fun e => e.1), k ∉ a.points.map (fun e => e.1))
    (hvdisj : ∀ v ∈ b.posList, v ∉ a.posList) : (a.union b).Good := by
  obtain ⟨hab, haw, hah, hak, hav⟩ := ha
  obtain ⟨hbb, hbw, hbh, hbk, hbv⟩ := hb
  refine ⟨?_, by show 0 ≤ max a.width b.width; omega,
    by show 0 ≤ max a.height b.height; omega, ?_, ?_⟩
  · intro e he
    rcases List.mem_append.mp he with he | he
    · have := hbb e he
      show 0 ≤ e.1.1 ∧ e.1.1 < max a.width b.width ∧ 0 ≤ e.1.2 ∧
        e.1.2 < max a.height b.height
      omega
    · have := hab e he
      show 0 ≤ e.1.1 ∧ e.1.1 < max a.width b.width ∧ 0 ≤ e.1.2 ∧
        e.1.2 < max a.height b.height
      omega
  · show ((b.points ++ a.points).map (fun e => e.1)).Nodup
    rw [List.map_append, List.nodup_append]
    exact ⟨hbk, hak, fun k hk => hkdisj k hk⟩
  · rw [posList_union, List.nodup_append]
    exact ⟨hbv, hav, fun v hv => hvdisj v hv⟩

theorem join_horiz_good {a b : Layout} {gap : Int} (ha : a.Good) (hb : b.Good)
    (hgap : 0 ≤ gap) (hfit : a.width + gap + b.width ≤ 32767)
    (hvdisj : ∀ v ∈ b.posList, v ∉ a.posList) :
    (a.join_horiz b gap).Good ∧
    (a.join_horiz b gap).width ≤ a.width + gap + b.width ∧
    (a.join_horiz b gap).height = max a.height b.height := by
  obtain ⟨hab, haw, hah, hak, hav⟩ := ha
  obtain ⟨hbb, hbw, hbh, hbk, hbv⟩ := hb
  have hsh : wrapI16 (wrapI16 a.width + gap) = a.width + gap := by
    rw [wrapI16_eq_self (show (-32768 : Int) ≤ a.width by omega)
      (show a.width ≤ 32767 by omega)]
    exact wrapI16_eq_self (by omega) (by omega)
  have hmw : (b.move_right (wrapI16 (wrapI16 a.width + gap))).width =
      b.width + (a.width + gap) := by
    show wrapU16 (wrapI16 (wrapI16 b.width + wrapI16 (wrapI16 a.width + gap))) = _
    rw [hsh, wrapI16_eq_self (show (-32768 : Int) ≤ b.width by omega)
      (show b.width ≤ 32767 by omega),
      wrapI16_eq_self (show (-32768 : Int) ≤ b.width + (a.width + gap) by omega)
      (show b.width + (a.width + gap) ≤ 32767 by omega),
      wrapU16_eq_self (by omega) (by omega)]
  have hmp : (b.move_right (wrapI16 (wrapI16 a.width + gap))).points =
      b.points.map (fun e => ((e.1.1 + (a.width + gap), e.1.2), e.2)) := by
    show b.points.map
        (fun e => ((wrapI16 (e.1.1 + wrapI16 (wrapI16 a.width + gap)), e.1.2), e.2)) = _
    rw [hsh]
    refine List.map_congr_left ?_
    intro e he
    have hbd := hbb e he
    rw [wrapI16_eq_self (show (-32768 : Int) ≤ e.1.1 + (a.width + gap) by omega)
      (show e.1.1 + (a.width + gap) ≤ 32767 by omega)]
  have hmgood : (b.move_right (wrapI16 (wrapI16 a.width + gap))).Good := by
    refine ⟨?_, ?_, hbh, ?_, ?_⟩
    · intro e he
      rw [hmp] at he
      obtain ⟨e₀, he₀, rfl⟩ := List.mem_map.mp he
      have hbd := hbb e₀ he₀
      refine ⟨?_, ?_, ?_, ?_⟩
      · show 0 ≤ e₀.1.1 + (a.width + gap)
        omega
      · show e₀.1.1 + (a.width + gap) <
          (b.move_right (wrapI16 (wrapI16 a.width + gap))).width
        rw [hmw]; omega
      · show 0 ≤ e₀.1.2
        exact hbd.2.2.1
      · show e₀.1.2 < (b.move_right (wrapI16 (wrapI16 a.width + gap))).height
        exact hbd.2.2.2
    · rw [hmw]; omega
    · rw [hmp, List.map_map]
      have heq : ((fun e : (Int × Int) × List Int => e.1) ∘
          (fun e : (Int × Int) × List Int => ((e.1.1 + (a.width + gap), e.1.2), e.2))) =
          ((fun xy : Int × Int => (xy.1 + (a.width + gap), xy.2)) ∘ (fun e => e.1)) := rfl
      rw [heq, ← List.map_map]
      refine List.Nodup.map ?_ hbk
      intro u v huv
      have huv' : (u.1 + (a.width + gap), u.2) = (v.1 + (a.width + gap), v.2) := huv
      rw [Prod.mk.injEq] at huv'
      exact Prod.ext (by omega) huv'.2
    · rw [posList_move_right]
      exact hbv
  refine ⟨?_, ?_, ?_⟩
  · rw [Layout.join_horiz]
    refine union_good ⟨hab, haw, hah, hak, hav⟩ hmgood ?_ ?_
    · intro k hk hk'
      show False
      obtain ⟨e, he, rfl⟩ := List.mem_map.mp hk
      rw [hmp] at he
      obtain ⟨e₀, he₀, heq⟩ := List.mem_map.mp he
      obtain ⟨e₁, he₁, heq'⟩ := List.mem_map.mp hk'
      have h1 := hbb e₀ he₀
      have h2 := hab e₁ he₁
      have hx : e.1.1 = e₀.1.1 + (a.width + gap) := by rw [← heq]
      have hx' : e₁.1.1 = e.1.1 := by rw [heq']
      omega
    · rw [posList_move_right]
      exact hvdisj
  · show max a.width (b.move_right (wrapI16 (wrapI16 a.width + gap))).width ≤
      a.width + gap + b.width
    rw [hmw]
    omega
  · show max a.height (b.move_right (wrapI16 (wrapI16 a.width + gap))).height =
      max a.height b.height
    rfl

theorem join_vert_good {a b : Layout} {gap : Int} (ha : a.Good) (hb : b.Good)
    (hgap : 0 ≤ gap) (hfit : a.height + gap + b.height ≤ 32767)
    (hvdisj : ∀ v ∈ b.posList, v ∉ a.posList) :
    (a.join_vert b gap).Good ∧
    (a.join_vert b gap).height ≤ a.height + gap + b.height ∧
    (a.join_vert b gap).width = max a.width b.width := by
  obtain ⟨hab, haw, hah, hak, hav⟩ := ha
  obtain ⟨hbb, hbw, hbh, hbk, hbv⟩ := hb
  have hsh : wrapI16 (wrapI16 a.height + gap) = a.height + gap := by
    rw [wrapI16_eq_self (show (-32768 : Int) ≤ a.height by omega)
      (show a.height ≤ 32767 by omega)]
    exact wrapI16_eq_self (by omega) (by omega)
  have hmw : (b.move_down (wrapI16 (wrapI16 a.height + gap))).height =
      b.height + (a.height + gap) := by
    show wrapU16 (wrapI16 (wrapI16 b.height + wrapI16 (wrapI16 a.height + gap))) = _
    rw [hsh, wrapI16_eq_self (show (-32768 : Int) ≤ b.height by omega)
      (show b.height ≤ 32767 by omega),
      wrapI16_eq_self (show (-32768 : Int) ≤ b.height + (a.height + gap) by omega)
      (show b.height + (a.height + gap) ≤ 32767 by omega),
      wrapU16_eq_self (by omega) (by omega)]
  have hmp : (b.move_down (wrapI16 (wrapI16 a.height + gap))).points =
      b.points.map (fun e => ((e.1.1, e.1.2 + (a.height + gap)), e.2)) := by
    show b.points.map
        (fun e => ((e.1.1, wrapI16 (e.1.2 + wrapI16 (wrapI16 a.height + gap))), e.2)) = _
    rw [hsh]
    refine List.map_congr_left ?_
    intro e he
    have hbd := hbb e he
    rw [wrapI16_eq_self (show (-32768 : Int) ≤ e.1.2 + (a.height + gap) by omega)
      (show e.1.2 + (a.height + gap) ≤ 32767 by omega)]
  have hmgood : (b.move_down (wrapI16 (wrapI16 a.height + gap))).Good := by
    refine ⟨?_, hbw, ?_, ?_, ?_⟩
    · intro e he
      rw [hmp] at he
      obtain ⟨e₀, he₀, rfl⟩ := List.mem_map.mp he
      have hbd := hbb e₀ he₀
      refine ⟨?_, ?_, ?_, ?_⟩
      · show 0 ≤ e₀.1.1
        exact hbd.1
      · show e₀.1.1 < (b.move_down (wrapI16 (wrapI16 a.height + gap))).width
        exact hbd.2.1
      · show 0 ≤ e₀.1.2 + (a.height + gap)
        omega
      · show e₀.1.2 + (a.height + gap) <
          (b.move_down (wrapI16 (wrapI16 a.height + gap))).height
        rw [hmw]; omega
    · rw [hmw]; omega
    · rw [hmp, List.map_map]
      have heq : ((fun e : (Int × Int) × List Int => e.1) ∘
          (fun e : (Int × Int) × List Int => ((e.1.1, e.1.2 + (a.height + gap)), e.2))) =
          ((fun xy : Int × Int => (xy.1, xy.2 + (a.height + gap))) ∘ (fun e => e.1)) := rfl
      rw [heq, ← List.map_map]
      refine List.Nodup.map ?_ hbk
      intro u v huv
      have huv' : (u.1, u.2 + (a.height + gap)) = (v.1, v.2 + (a.height + gap)) := huv
      rw [Prod.mk.injEq] at huv'
      exact Prod.ext huv'.1 (by omega)
    · rw [posList_move_down]
      exact hbv
  refine ⟨?_, ?_, ?_⟩
  · rw [Layout.join_vert]
    refine union_good ⟨hab, haw, hah, hak, hav⟩ hmgood ?_ ?_
    · intro k hk hk'
      show False
      obtain ⟨e, he, rfl⟩ := List.mem_map.mp hk
      rw [hmp] at he
      obtain ⟨e₀, he₀, heq⟩ := List.mem_map.mp he
      obtain ⟨e₁, he₁, heq'⟩ := List.mem_map.mp hk'
      have h1 := hbb e₀ he₀
      have h2 := hab e₁ he₁
      have hy : e.1.2 = e₀.1.2 + (a.height + gap) := by rw [← heq]
      have hy' : e₁.1.2 = e.1.2 := by rw [heq']
      omega
    · rw [posList_move_down]
      exact hvdisj
  · show max a.height (b.move_down (wrapI16 (wrapI16 a.height + gap))).height ≤
      a.height + gap + b.height
    rw [hmw]
    omega
  · show max a.width (b.move_down (wrapI16 (wrapI16 a.height + gap))).width =
      max a.width b.width
    rfl

/-- Disjointness of stored position lists, as used between row slices. -/
def PosDisj (u v : Layout) : Prop := ∀ x ∈ u.posList, x ∉ v.posList

theorem foldl_join_horiz_spec :
    ∀ (rest : List Layout) (acc : Layout) (gap H : Int), 0 ≤ gap → acc.Good →
      (∀ l ∈ rest, l.Good) → rest.Pairwise PosDisj →
      (∀ l ∈ rest, ∀ v ∈ l.posList, v ∉ acc.posList) →
      acc.height ≤ H → (∀ l ∈ rest, l.height ≤ H) →
      acc.width + (rest.map (fun l => gap + l.width)).sum ≤ 32767 →
      (rest.foldl (fun a x => a.join_horiz x gap) acc).Good ∧
      (∀ v, v ∈ (rest.foldl (fun a x => a.join_horiz x gap) acc).posList ↔
        (v ∈ acc.posList ∨ ∃ l ∈ rest, v ∈ l.posList)) ∧
      (rest.foldl (fun a x => a.join_horiz x gap) acc).width ≤
        acc.width + (rest.map (fun l => gap + l.width)).sum ∧
      (rest.foldl (fun a x => a.join_horiz x gap) acc).height ≤ H := by
  intro rest
  induction rest with
  | nil =>
    intro acc gap H hgap hacc _ _ _ haccH _ _
    refine ⟨hacc, fun v => by simp, ?_, haccH⟩
    simp
  | cons b bs ih =>
    intro acc gap H hgap hacc hgood hpw hdisj haccH hrestH hsum
    have hb : b.Good := hgood b (by simp)
    have hbdisj : ∀ v ∈ b.posList, v ∉ acc.posList := hdisj b (by simp)
    have hsum_cons : ((b :: bs).map (fun l => gap + l.width)).sum =
        (gap + b.width) + (bs.map (fun l => gap + l.width)).sum := by
      rw [List.map_cons, List.sum_cons]
    have hSnn : 0 ≤ (bs.map (fun l => gap + l.width)).sum := by
      refine sum_map_nonneg bs (fun l => gap + l.width) ?_
      intro l hl
      have := (hgood l (by simp [hl])).2.1
      show 0 ≤ gap + l.width
      omega
    have haccw : 0 ≤ acc.width := hacc.2.1
    have hbw : 0 ≤ b.width := hb.2.1
    have hfit : acc.width + gap + b.width ≤ 32767 := by
      rw [hsum_cons] at hsum
      omega
    obtain ⟨hjg, hjw, hjh⟩ := join_horiz_good hacc hb hgap hfit hbdisj
    have hpw' : bs.Pairwise PosDisj := (List.pairwise_cons.mp hpw).2
    have hbhead : ∀ l ∈ bs, PosDisj b l := (List.pairwise_cons.mp hpw).1
    have hdisj' : ∀ l ∈ bs, ∀ v ∈ l.posList, v ∉ (acc.join_horiz b gap).posList := by
      intro l hl v hv
      rw [posList_join_horiz, List.mem_append]
      push_neg
      constructor
      · intro hvb
        exact hbhead l hl v hvb hv
      · exact hdisj l (by simp [hl]) v hv
    have hjH : (acc.join_horiz b gap).height ≤ H := by
      rw [hjh]
      exact max_le haccH (hrestH b (by simp))
    have hsum' : (acc.join_horiz b gap).width +
        (bs.map (fun l => gap + l.width)).sum ≤ 32767 := by
      rw [hsum_cons] at hsum
      omega
    obtain ⟨hg, hm, hwb, hhb⟩ := ih (acc.join_horiz b gap) gap H hgap hjg
      (fun l hl => hgood l (by simp [hl])) hpw' hdisj' hjH
      (fun l hl => hrestH l (by simp [hl])) hsum'
    refine ⟨hg, ?_, ?_, hhb⟩
    · intro v
      rw [List.foldl_cons, hm v, posList_join_horiz, List.mem_append]
      constructor
      · rintro ((h | h) | h)
        · exact Or.inr ⟨b, by simp, h⟩
        · exact Or.inl h
        · obtain ⟨l, hl, hv⟩ := h
          exact Or.inr ⟨l, by simp [hl], hv⟩
      · rintro (h | ⟨l, hl, hv⟩)
        · exact Or.inl (Or.inr h)
        · rcases List.mem_cons.mp hl with rfl | hl
          · exact Or.inl (Or.inl hv)
          · exact Or.inr ⟨l, hl, hv⟩
    · rw [List.foldl_cons, hsum_cons]
      show (bs.foldl (fun a x => a.join_horiz x gap) (acc.join_horiz b gap)).width ≤
        acc.width + ((gap + b.width) + (bs.map (fun l => gap + l.width)).sum)
      omega

theorem foldl_join_vert_spec :
    ∀ (rest : List Layout) (acc : Layout) (gap W : Int), 0 ≤ gap → acc.Good →
      (∀ l ∈ rest, l.Good) → rest.Pairwise PosDisj →
      (∀ l ∈ rest, ∀ v ∈ l.posList, v ∉ acc.posList) →
      acc.width ≤ W → (∀ l ∈ rest, l.width ≤ W) →
      acc.height + (rest.map (fun l => gap + l.height)).sum ≤ 32767 →
      (rest.foldl (fun a x => a.join_vert x gap) acc).Good ∧
      (∀ v, v ∈ (rest.foldl (fun a x => a.join_vert x gap) acc).posList ↔
        (v ∈ acc.posList ∨ ∃ l ∈ rest, v ∈ l.posList)) ∧
      (rest.foldl (fun a x => a.join_vert x gap) acc).height ≤
        acc.height + (rest.map (fun l => gap + l.height)).sum ∧
      (rest.foldl (fun a x => a.join_vert x gap) acc).width ≤ W := by
  intro rest
  induction rest with
  | nil =>
    intro acc gap W hgap hacc _ _ _ haccW _ _
    refine ⟨hacc, fun v => by simp, ?_, haccW⟩
    simp
  | cons b bs ih =>
    intro acc gap W hgap hacc hgood hpw hdisj haccW hrestW hsum
    have hb : b.Good := hgood b (by simp)
    have hbdisj : ∀ v ∈ b.posList, v ∉ acc.posList := hdisj b (by simp)
    have hsum_cons : ((b :: bs).map (fun l => gap + l.height)).sum =
        (gap + b.height) + (bs.map (fun l => gap + l.height)).sum := by
      rw [List.map_cons, List.sum_cons]
    have hSnn : 0 ≤ (bs.map (fun l => gap + l.height)).sum := by
      refine sum_map_nonneg bs (fun l => gap + l.height) ?_
      intro l hl
      have := (hgood l (by simp [hl])).2.2.1
      show 0 ≤ gap + l.height
      omega
    have hacch : 0 ≤ acc.height := hacc.2.2.1
    have hbh : 0 ≤ b.height := hb.2.2.1
    have hfit : acc.height + gap + b.height ≤ 32767 := by
      rw [hsum_cons] at hsum
      omega
    obtain ⟨hjg, hjh, hjw⟩ := join_vert_good hacc hb hgap hfit hbdisj
    have hpw' : bs.Pairwise PosDisj := (List.pairwise_cons.mp hpw).2
    have hbhead : ∀ l ∈ bs, PosDisj b l := (List.pairwise_cons.mp hpw).1
    have hdisj' : ∀ l ∈ bs, ∀ v ∈ l.posList, v ∉ (acc.join_vert b gap).posList := by
      intro l hl v hv
      rw [posList_join_vert, List.mem_append]
      push_neg
      constructor
      · intro hvb
        exact hbhead l hl v hvb hv
      · exact hdisj l (by simp [hl]) v hv
    have hjW : (acc.join_vert b gap).width ≤ W := by
      rw [hjw]
      exact max_le haccW (hrestW b (by simp))
    have hsum' : (acc.join_vert b gap).height +
        (bs.map (fun l => gap + l.height)).sum ≤ 32767 := by
      rw [hsum_cons] at hsum
      omega
    obtain ⟨hg, hm, hhb, hwb⟩ := ih (acc.join_vert b gap) gap W hgap hjg
      (fun l hl => hgood l (by simp [hl])) hpw' hdisj' hjW
      (fun l hl => hrestW l (by simp [hl])) hsum'
    refine ⟨hg, ?_, ?_, hwb⟩
    · intro v
      rw [List.foldl_cons, hm v, posList_join_vert, List.mem_append]
      constructor
      · rintro ((h | h) | h)
        · exact Or.inr ⟨b, by simp, h⟩
        · exact Or.inl h
        · obtain ⟨l, hl, hv⟩ := h
          exact Or.inr ⟨l, by simp [hl], hv⟩
      · rintro (h | ⟨l, hl, hv⟩)
        · exact Or.inl (Or.inr h)
        · rcases List.mem_cons.mp hl with rfl | hl
          · exact Or.inl (Or.inl hv)
          · exact Or.inr ⟨l, hl, hv⟩
    · rw [List.foldl_cons, hsum_cons]
      show (bs.foldl (fun a x => a.join_vert x gap) (acc.join_vert b gap)).height ≤
        acc.height + ((gap + b.height) + (bs.map (fun l => gap + l.height)).sum)
      omega

theorem concat_horiz_spec {ls : List Layout} {gap H : Int} (hgap : 0 ≤ gap)
    (hgood : ∀ l ∈ ls, l.Good) (hpw : ls.Pairwise PosDisj)
    (hH0 : 0 ≤ H) (hH : ∀ l ∈ ls, l.height ≤ H)
    (hsum : (ls.map (fun l => gap + l.width)).sum ≤ 32767) :
    (Layout.concat_horiz ls gap).Good ∧
    (∀ v, v ∈ (Layout.concat_horiz ls gap).posList ↔ ∃ l ∈ ls, v ∈ l.posList) ∧
    (Layout.concat_horiz ls gap).width ≤ (ls.map (fun l => gap + l.width)).sum ∧
    (Layout.concat_horiz ls gap).height ≤ H := by
  cases ls with
  | nil =>
    refine ⟨?_, ?_, ?_, ?_⟩
    · show Layout.empty.Good
      refine ⟨?_, le_refl _, le_refl _, ?_, ?_⟩
      · intro e he; simp [Layout.empty] at he
      · simp [Layout.empty]
      · simp [Layout.empty, Layout.posList]
    · intro v
      show v ∈ Layout.empty.posList ↔ _
      simp [Layout.empty, Layout.posList]
    · show Layout.empty.width ≤ (([] : List Layout).map (fun l => gap + l.width)).sum
      simp [Layout.empty]
    · show Layout.empty.height ≤ H
      exact hH0
  | cons a rest =>
    have ha := hgood a (by simp)
    have hsum_cons : ((a :: rest).map (fun l => gap + l.width)).sum =
        (gap + a.width) + (rest.map (fun l => gap + l.width)).sum := by
      rw [List.map_cons, List.sum_cons]
    have haw : 0 ≤ a.width := ha.2.1
    have hfold_sum : a.width + (rest.map (fun l => gap + l.width)).sum ≤ 32767 := by
      rw [hsum_cons] at hsum
      omega
    obtain ⟨hg, hm, hwb, hhb⟩ := foldl_join_horiz_spec rest a gap H hgap ha
      (fun l hl => hgood l (by simp [hl])) (List.pairwise_cons.mp hpw).2
      (fun l hl v hv hva => (List.pairwise_cons.mp hpw).1 l hl v hva hv)
      (hH a (by simp)) (fun l hl => hH l (by simp [hl])) hfold_sum
    refine ⟨hg, ?_, ?_, hhb⟩
    · intro v
      rw [Layout.concat_horiz, hm v]
      constructor
      · rintro (h | ⟨l, hl, hv⟩)
        · exact ⟨a, by simp, h⟩
        · exact ⟨l, by simp [hl], hv⟩
      · rintro ⟨l, hl, hv⟩
        rcases List.mem_cons.mp hl with rfl | hl
        · exact Or.inl hv
        · exact Or.inr ⟨l, hl, hv⟩
    · rw [hsum_cons]
      show (rest.foldl (fun a x => a.join_horiz x gap) a).width ≤
        (gap + a.width) + (rest.map (fun l => gap + l.width)).sum
      omega

theorem concat_vert_spec {ls : List Layout} {gap W : Int} (hgap : 0 ≤ gap)
    (hgood : ∀ l ∈ ls, l.Good) (hpw : ls.Pairwise PosDisj)
    (hW0 : 0 ≤ W) (hW : ∀ l ∈ ls, l.width ≤ W)
    (hsum : (ls.map (fun l => gap + l.height)).sum ≤ 32767) :
    (Layout.concat_vert ls gap).Good ∧
    (∀ v, v ∈ (Layout.concat_vert ls gap).posList ↔ ∃ l ∈ ls, v ∈ l.posList) ∧
    (Layout.concat_vert ls gap).height ≤ (ls.map (fun l => gap + l.height)).sum ∧
    (Layout.concat_vert ls gap).width ≤ W := by
  cases ls with
  | nil =>
    refine ⟨?_, ?_, ?_, ?_⟩
    · show Layout.empty.Good
      refine ⟨?_, le_refl _, le_refl _, ?_, ?_⟩
      · intro e he; simp [Layout.empty] at he
      · simp [Layout.empty]
      · simp [Layout.empty, Layout.posList]
    · intro v
      show v ∈ Layout.empty.posList ↔ _
      simp [Layout.empty, Layout.posList]
    · show Layout.empty.height ≤ (([] : List Layout).map (fun l => gap + l.height)).sum
      simp [Layout.empty]
    · show Layout.empty.width ≤ W
      exact hW0
  | cons a rest =>
    have ha := hgood a (by simp)
    have hsum_cons : ((a :: rest).map (fun l => gap + l.height)).sum =
        (gap + a.height) + (rest.map (fun l => gap + l.height)).sum := by
      rw [List.map_cons, List.sum_cons]
    have hah : 0 ≤ a.height := ha.2.2.1
    have hfold_sum : a.height + (rest.map (fun l => gap + l.height)).sum ≤ 32767 := by
      rw [hsum_cons] at hsum
      omega
    obtain ⟨hg, hm, hhb, hwb⟩ := foldl_join_vert_spec rest a gap W hgap ha
      (fun l hl => hgood l (by simp [hl])) (List.pairwise_cons.mp hpw).2
      (fun l hl v hv hva => (List.pairwise_cons.mp hpw).1 l hl v hva hv)
      (hW a (by simp)) (fun l hl => hW l (by simp [hl])) hfold_sum
    refine ⟨hg, ?_, ?_, hwb⟩
    · intro v
      rw [Layout.concat_vert, hm v]
      constructor
      · rintro (h | ⟨l, hl, hv⟩)
        · exact ⟨a, by simp, h⟩
        · exact ⟨l, by simp [hl], hv⟩
      · rintro ⟨l, hl, hv⟩
        rcases List.mem_cons.mp hl with rfl | hl
        · exact Or.inl hv
        · exact Or.inr ⟨l, hl, hv⟩
    · rw [hsum_cons]
      show (rest.foldl (fun a x => a.join_vert x gap) a).height ≤
        (gap + a.height) + (rest.map (fun l => gap + l.height)).sum
      omega

theorem getD_nonneg {l : List Int} (h : ∀ x ∈ l, 0 ≤ x) {k : Nat} {d : Int}
    (hd : 0 ≤ d) : 0 ≤ l.getD k d := by
  rw [List.getD_eq_getElem?_getD]
  cases hk : l[k]? with
  | none => simpa using hd
  | some x => simpa using h x (List.getElem?_mem hk)

theorem gaps_nonneg (compact : Bool) (k : Nat) :
    0 ≤ (if compact then GAPS_COMPACT else GAPS).getD k 0 := by
  cases compact
  · exact getD_nonneg (by decide) (le_refl 0)
  · exact getD_nonneg (by decide) (le_refl 0)

theorem oddRange_nodup (n : Int) : (oddRange n).Nodup := by
  refine List.Nodup.map ?_ (List.nodup_range _)
  intro a b hab
  have hab' : -n + 1 + 2 * (a : Int) = -n + 1 + 2 * (b : Int) := hab
  omega

theorem iList_nodup {n : Int} (hn : 1 ≤ n) : (iList n).Nodup := by
  rw [iList]
  refine List.nodup_cons.mpr ⟨?_, ?_⟩
  · intro h
    rcases List.mem_append.mp h with h | h
    · have := (mem_oddRange.mp h); omega
    · have := List.mem_singleton.mp h
      omega
  · rw [List.nodup_append]
    refine ⟨oddRange_nodup n, List.nodup_singleton n, ?_⟩
    intro x hx hx'
    have h1 := List.mem_singleton.mp hx'
    have h2 := mem_oddRange.mp hx
    omega

theorem iList_length (n : Int) : (iList n).length = n.toNat + 2 := by
  simp [iList, oddRange]

theorem sizeBound_succ (n : Int) (compact : Bool) (d : Nat) :
    sizeBound n compact (d + 1) =
      (if (d + 1) % 2 = 1 then
        ((n + 2) * ((sizeBound n compact d).1 +
            (if compact then GAPS_COMPACT else GAPS).getD (d + 1) 0),
          (sizeBound n compact d).2)
      else
        ((sizeBound n compact d).1,
          (n + 2) * ((sizeBound n compact d).2 +
            (if compact then GAPS_COMPACT else GAPS).getD (d + 1) 0))) := rfl

theorem sizeBound_pos {n : Int} (hn : 1 ≤ n) (compact : Bool) :
    ∀ d : Nat, 1 ≤ (sizeBound n compact d).1 ∧ 1 ≤ (sizeBound n compact d).2 := by
  intro d
  induction d with
  | zero => exact ⟨le_refl 1, le_refl 1⟩
  | succ dp ih =>
    obtain ⟨h1, h2⟩ := ih
    have hg := gaps_nonneg compact (dp + 1)
    rw [sizeBound_succ]
    by_cases hpar : (dp + 1) % 2 = 1
    · rw [if_pos hpar]
      refine ⟨?_, h2⟩
      have hmul : 1 * 1 ≤ (n + 2) * ((sizeBound n compact dp).1 +
          (if compact then GAPS_COMPACT else GAPS).getD (dp + 1) 0) :=
        mul_le_mul (by omega) (by omega) (by omega) (by omega)
      show 1 ≤ (n + 2) * ((sizeBound n compact dp).1 +
          (if compact then GAPS_COMPACT else GAPS).getD (dp + 1) 0)
      omega
    · rw [if_neg hpar]
      refine ⟨h1, ?_⟩
      have hmul : 1 * 1 ≤ (n + 2) * ((sizeBound n compact dp).2 +
          (if compact then GAPS_COMPACT else GAPS).getD (dp + 1) 0) :=
        mul_le_mul (by omega) (by omega) (by omega) (by omega)
      show 1 ≤ (n + 2) * ((sizeBound n compact dp).2 +
          (if compact then GAPS_COMPACT else GAPS).getD (dp + 1) 0)
      omega

theorem sizeBound_le_succ {n : Int} (hn : 1 ≤ n) (compact : Bool) (d : Nat) :
    (sizeBound n compact d).1 ≤ (sizeBound n compact (d + 1)).1 ∧
    (sizeBound n compact d).2 ≤ (sizeBound n compact (d + 1)).2 := by
  obtain ⟨h1, h2⟩ := sizeBound_pos hn compact d
  have hg := gaps_nonneg compact (d + 1)
  rw [sizeBound_succ]
  by_cases hpar : (d + 1) % 2 = 1
  · rw [if_pos hpar]
    refine ⟨?_, le_refl _⟩
    have hstep : 1 * (sizeBound n compact d).1 ≤ (n + 2) * ((sizeBound n compact d).1 +
        (if compact then GAPS_COMPACT else GAPS).getD (d + 1) 0) :=
      mul_le_mul (by omega) (by omega) (by omega) (by omega)
    show (sizeBound n compact d).1 ≤ (n + 2) * ((sizeBound n compact d).1 +
        (if compact then GAPS_COMPACT else GAPS).getD (d + 1) 0)
    omega
  · rw [if_neg hpar]
    refine ⟨le_refl _, ?_⟩
    have hstep : 1 * (sizeBound n compact d).2 ≤ (n + 2) * ((sizeBound n compact d).2 +
        (if compact then GAPS_COMPACT else GAPS).getD (d + 1) 0) :=
      mul_le_mul (by omega) (by omega) (by omega) (by omega)
    show (sizeBound n compact d).2 ≤ (n + 2) * ((sizeBound n compact d).2 +
        (if compact then GAPS_COMPACT else GAPS).getD (d + 1) 0)
    omega

theorem sizeBound_fit_lower {n : Int} (hn : 1 ≤ n) (compact : Bool) {d : Nat}
    (h1 : (sizeBound n compact (d + 1)).1 ≤ 32767)
    (h2 : (sizeBound n compact (d + 1)).2 ≤ 32767) :
    (sizeBound n compact d).1 ≤ 32767 ∧ (sizeBound n compact d).2 ≤ 32767 := by
  obtain ⟨m1, m2⟩ := sizeBound_le_succ hn compact d
  exact ⟨le_trans m1 h1, le_trans m2 h2⟩

theorem make_layout_succ (n : Int) (dp : Nat) (compact : Bool) :
    Layout.make_layout n (dp + 1) compact =
      (if (dp + 1) % 2 = 1 then
        Layout.concat_horiz
          ((iList n).map (layoutSlice (Layout.make_layout n dp compact) n (dp + 1)))
          ((if compact then GAPS_COMPACT else GAPS).getD (dp + 1) 0)
      else
        Layout.concat_vert
          ((iList n).map (layoutSlice (Layout.make_layout n dp compact) n (dp + 1))).reverse
          ((if compact then GAPS_COMPACT else GAPS).getD (dp + 1) 0)) := rfl

/-- The main layout invariant: at every dimension whose conservative size
estimate fits in `i16` (so that no cast wraps), the generator produces a
well-formed layout whose point values are exactly the cells, with width
and height below the estimate. -/
theorem make_layout_spec {n : Int} (hn : 1 ≤ n) (compact : Bool) :
    ∀ d : Nat, (sizeBound n compact d).1 ≤ 32767 → (sizeBound n compact d).2 ≤ 32767 →
      (Layout.make_layout n d compact).Good ∧
      (∀ p, p ∈ (Layout.make_layout n d compact).posList ↔ isCell n d p) ∧
      (Layout.make_layout n d compact).width ≤ (sizeBound n compact d).1 ∧
      (Layout.make_layout n d compact).height ≤ (sizeBound n compact d).2 := by
  intro d
  induction d with
  | zero =>
    intro hfit1 hfit2
    refine ⟨?_, ?_, ?_, ?_⟩
    · refine ⟨?_, ?_, ?_, ?_, ?_⟩
      · intro e he
        have he' : e = ((0, 0), []) := by
          simpa using (show e ∈ [((0, 0), ([] : List Int))] from he)
        subst he'
        refine ⟨?_, ?_, ?_, ?_⟩
        · show (0 : Int) ≤ 0; omega
        · show (0 : Int) < 1; omega
        · show (0 : Int) ≤ 0; omega
        · show (0 : Int) < 1; omega
      · show (0 : Int) ≤ 1; omega
      · show (0 : Int) ≤ 1; omega
      · show (([((0, 0), ([] : List Int))] : List ((Int × Int) × List Int)).map
          (fun e => e.1)).Nodup
        simp
      · show (([((0, 0), ([] : List Int))] : List ((Int × Int) × List Int)).map
          (fun e => e.2)).Nodup
        simp
    · intro p
      show p ∈ [([] : List Int)] ↔ _
      rw [List.mem_singleton]
      constructor
      · rintro rfl
        exact ⟨rfl, by simp, by simp⟩
      · rintro ⟨hlen, _, _⟩
        rw [List.length_eq_zero] at hlen
        exact hlen
    · show (1 : Int) ≤ 1; omega
    · show (1 : Int) ≤ 1; omega
  | succ dp ih =>
    intro hfit1 hfit2
    obtain ⟨hlow1, hlow2⟩ := sizeBound_fit_lower hn compact hfit1 hfit2
    obtain ⟨ihg, ihm, ihw, ihh⟩ := ih hlow1 hlow2
    have hlw32 : (Layout.make_layout n dp compact).width ≤ 32767 := le_trans ihw hlow1
    have hlh32 : (Layout.make_layout n dp compact).height ≤ 32767 := le_trans ihh hlow2
    have hslice := fun i => layoutSlice_good ihg hlw32 hlh32 n (dp + 1) i
    have hrowgood : ∀ l ∈ (iList n).map
        (layoutSlice (Layout.make_layout n dp compact) n (dp + 1)), l.Good := by
      intro l hl
      obtain ⟨i, hi, rfl⟩ := List.mem_map.mp hl
      exact (hslice i).1
    have hroww : ∀ l ∈ (iList n).map
        (layoutSlice (Layout.make_layout n dp compact) n (dp + 1)),
        l.width ≤ (sizeBound n compact dp).1 := by
      intro l hl
      obtain ⟨i, hi, rfl⟩ := List.mem_map.mp hl
      exact le_trans (hslice i).2.1 ihw
    have hrowh : ∀ l ∈ (iList n).map
        (layoutSlice (Layout.make_layout n dp compact) n (dp + 1)),
        l.height ≤ (sizeBound n compact dp).2 := by
      intro l hl
      obtain ⟨i, hi, rfl⟩ := List.mem_map.mp hl
      exact le_trans (hslice i).2.2 ihh
    have hrowpw : ((iList n).map
        (layoutSlice (Layout.make_layout n dp compact) n (dp + 1))).Pairwise PosDisj := by
      rw [List.pairwise_map]
      refine List.Pairwise.imp ?_ (iList_nodup hn)
      intro i j hij x hxi hxj
      rw [layoutSlice_posList_mem] at hxi hxj
      obtain ⟨q, _, rfl, _⟩ := hxi
      obtain ⟨q', _, heq, _⟩ := hxj
      have hlast := congrArg List.getLast? heq
      rw [List.getLast?_concat, List.getLast?_concat] at hlast
      exact hij (by injection hlast)
    have hgap : 0 ≤ (if compact then GAPS_COMPACT else GAPS).getD (dp + 1) 0 :=
      gaps_nonneg compact (dp + 1)
    have hmem_slice : ∀ v, (∃ l ∈ (iList n).map
        (layoutSlice (Layout.make_layout n dp compact) n (dp + 1)), v ∈ l.posList) ↔
        isCell n (dp + 1) v := by
      intro v
      constructor
      · rintro ⟨l, hl, hv⟩
        obtain ⟨i, hi, rfl⟩ := List.mem_map.mp hl
        rw [layoutSlice_posList_mem] at hv
        obtain ⟨q, hq, rfl, hcnt⟩ := hv
        exact isCell_snoc.mpr ⟨q, i, (ihm q).mp hq, hi, rfl, hcnt⟩
      · intro hv
        obtain ⟨q, i, hq, hi, rfl, hcnt⟩ := isCell_snoc.mp hv
        refine ⟨layoutSlice (Layout.make_layout n dp compact) n (dp + 1) i,
          List.mem_map.mpr ⟨i, hi, rfl⟩, ?_⟩
        rw [layoutSlice_posList_mem]
        exact ⟨q, (ihm q).mpr hq, rfl, hcnt⟩
    have hlen : ((((iList n).map
        (layoutSlice (Layout.make_layout n dp compact) n (dp + 1))).length : Int)) =
        n + 2 := by
      rw [List.length_map, iList_length]
      push_cast
      rw [Int.toNat_of_nonneg (show (0 : Int) ≤ n by omega)]
    obtain ⟨hB1, hB2⟩ := sizeBound_pos hn compact dp
    rw [make_layout_succ]
    by_cases hpar : (dp + 1) % 2 = 1
    · rw [if_pos hpar]
      have hsz1 : (sizeBound n compact (dp + 1)).1 =
          (n + 2) * ((sizeBound n compact dp).1 +
            (if compact then GAPS_COMPACT else GAPS).getD (dp + 1) 0) := by
        rw [sizeBound_succ, if_pos hpar]
      have hsz2 : (sizeBound n compact (dp + 1)).2 = (sizeBound n compact dp).2 := by
        rw [sizeBound_succ, if_pos hpar]
      have hSle : ((((iList n).map
          (layoutSlice (Layout.make_layout n dp compact) n (dp + 1))).map
          (fun l => (if compact then GAPS_COMPACT else GAPS).getD (dp + 1) 0 +
            l.width)).sum) ≤
          (n + 2) * ((sizeBound n compact dp).1 +
            (if compact then GAPS_COMPACT else GAPS).getD (dp + 1) 0) := by
        have h1 := sum_map_le_length_mul
          ((iList n).map (layoutSlice (Layout.make_layout n dp compact) n (dp + 1)))
          (fun l => (if compact then GAPS_COMPACT else GAPS).getD (dp + 1) 0 + l.width)
          ((if compact then GAPS_COMPACT else GAPS).getD (dp + 1) 0 +
            (sizeBound n compact dp).1)
          (fun l hl => by
            have := hroww l hl
            show (if compact then GAPS_COMPACT else GAPS).getD (dp + 1) 0 + l.width ≤ _
            omega)
        have h2 : ((((iList n).map
            (layoutSlice (Layout.make_layout n dp compact) n (dp + 1))).length : Int)) *
            ((if compact then GAPS_COMPACT else GAPS).getD (dp + 1) 0 +
              (sizeBound n compact dp).1) =
            (n + 2) * ((sizeBound n compact dp).1 +
              (if compact then GAPS_COMPACT else GAPS).getD (dp + 1) 0) := by
          rw [hlen]; ring
        omega
      have hsumfit : ((((iList n).map
          (layoutSlice (Layout.make_layout n dp compact) n (dp + 1))).map
          (fun l => (if compact then GAPS_COMPACT else GAPS).getD (dp + 1) 0 +
            l.width)).sum) ≤ 32767 := by
        rw [hsz1] at hfit1
        omega
      obtain ⟨hg, hm, hwb, hhb⟩ := concat_horiz_spec hgap hrowgood hrowpw
        (by omega) hrowh hsumfit
      refine ⟨hg, ?_, ?_, ?_⟩
      · intro p
        rw [hm p]
        exact hmem_slice p
      · rw [hsz1]
        omega
      · rw [hsz2]
        exact hhb
    · rw [if_neg hpar]
      have hsz1 : (sizeBound n compact (dp + 1)).1 = (sizeBound n compact dp).1 := by
        rw [sizeBound_succ, if_neg hpar]
      have hsz2 : (sizeBound n compact (dp + 1)).2 =
          (n + 2) * ((sizeBound n compact dp).2 +
            (if compact then GAPS_COMPACT else GAPS).getD (dp + 1) 0) := by
        rw [sizeBound_succ, if_neg hpar]
      have hrevgood : ∀ l ∈ ((iList n).map
          (layoutSlice (Layout.make_layout n dp compact) n (dp + 1))).reverse, l.Good := by
        intro l hl
        exact hrowgood l (List.mem_reverse.mp hl)
      have hrevw : ∀ l ∈ ((iList n).map
          (layoutSlice (Layout.make_layout n dp compact) n (dp + 1))).reverse,
          l.width ≤ (sizeBound n compact dp).1 := by
        intro l hl
        exact hroww l (List.mem_reverse.mp hl)
      have hrevpw : (((iList n).map
          (layoutSlice (Layout.make_layout n dp compact) n (dp + 1))).reverse).Pairwise
          PosDisj := by
        rw [List.pairwise_reverse]
        refine List.Pairwise.imp ?_ hrowpw
        intro a b hab x hxb hxa
        exact hab x hxa hxb
      have hSle : ((((iList n).map
          (layoutSlice (Layout.make_layout n dp compact) n (dp + 1))).reverse.map
          (fun l => (if compact then GAPS_COMPACT else GAPS).getD (dp + 1) 0 +
            l.height)).sum) ≤
          (n + 2) * ((sizeBound n compact dp).2 +
            (if compact then GAPS_COMPACT else GAPS).getD (dp + 1) 0) := by
        have h1 := sum_map_le_length_mul
          (((iList n).map (layoutSlice (Layout.make_layout n dp compact) n (dp + 1))).reverse)
          (fun l => (if compact then GAPS_COMPACT else GAPS).getD (dp + 1) 0 + l.height)
          ((if compact then GAPS_COMPACT else GAPS).getD (dp + 1) 0 +
            (sizeBound n compact dp).2)
          (fun l hl => by
            have := hrowh l (List.mem_reverse.mp hl)
            show (if compact then GAPS_COMPACT else GAPS).getD (dp + 1) 0 + l.height ≤ _
            omega)
        have h2 : (((((iList n).map
            (layoutSlice (Layout.make_layout n dp compact) n (dp + 1))).reverse).length :
              Int)) *
            ((if compact then GAPS_COMPACT else GAPS).getD (dp + 1) 0 +
              (sizeBound n compact dp).2) =
            (n + 2) * ((sizeBound n compact dp).2 +
              (if compact then GAPS_COMPACT else GAPS).getD (dp + 1) 0) := by
          rw [List.length_reverse, hlen]; ring
        omega
      have hsumfit : ((((iList n).map
          (layoutSlice (Layout.make_layout n dp compact) n (dp + 1))).reverse.map
          (fun l => (if compact then GAPS_COMPACT else GAPS).getD (dp + 1) 0 +
            l.height)).sum) ≤ 32767 := by
        rw [hsz2] at hfit2
        omega
      obtain ⟨hg, hm, hhb, hwb⟩ := concat_vert_spec hgap hrevgood hrevpw
        (by omega) hrevw hsumfit
      refine ⟨hg, ?_, ?_, ?_⟩
      · intro p
        rw [hm p]
        rw [← hmem_slice p]
        constructor
        · rintro ⟨l, hl, hv⟩
          exact ⟨l, List.mem_reverse.mp hl, hv⟩
        · rintro ⟨l, hl, hv⟩
          exact ⟨l, List.mem_reverse.mpr hl, hv⟩
      · rw [hsz1]
        exact hwb
      · rw [hsz2]
        omega

/-! ## Turn-level validity and range predicates -/

/-- Validity of a `Turn` (the checks performed by `side_turn` / `puzzle_rotate`). -/
def turnValid : Turn → Prop
  | .side t => ¬ sideTurnInvalid t
  | .puzzle t => ¬ puzzleTurnInvalid t

instance (t : Turn) : Decidable (turnValid t) := by
  cases t with
  | side t => show Decidable (¬ sideTurnInvalid t); infer_instance
  | puzzle t => show Decidable (¬ puzzleTurnInvalid t); infer_instance

/-- The axes named by a turn address coordinates of a length-`d` vector
(for a rotation the raw indices must also be nonnegative, as the source
casts them to `usize` without normalizing). -/
def turnInRange (t : Turn) (d : Nat) : Prop :=
  match t with
  | .side t => ax t.side < (d : Int) ∧ ax t.src < (d : Int) ∧ ax t.dst < (d : Int)
  | .puzzle t => 0 ≤ t.src ∧ t.src < (d : Int) ∧ 0 ≤ t.dst ∧ t.dst < (d : Int)

instance (t : Turn) (d : Nat) : Decidable (turnInRange t d) := by
  cases t with
  | side t =>
    show Decidable (ax t.side < (d : Int) ∧ ax t.src < (d : Int) ∧ ax t.dst < (d : Int))
    infer_instance
  | puzzle t =>
    show Decidable (0 ≤ t.src ∧ t.src < (d : Int) ∧ 0 ≤ t.dst ∧ t.dst < (d : Int))
    infer_instance

instance (n : Int) (d : Nat) (p : List Int) : Decidable (isBody n d p) := by
  unfold isBody; infer_instance

/-- The spec sentence behind claim C6, modelled word for word: every key
has one coordinate of absolute value `n` and the remaining coordinates are
odd integers in `[-(n-1), n-1]`. -/
def isStickerOddSpec (n : Int) (d : Nat) (p : List Int) : Prop :=
  p.length = d ∧ ∃ f, f < p.length ∧ |p.getD f 0| = n ∧
    ∀ j, j < p.length → j ≠ f →
      (Odd (p.getD j 0) ∧ -(n - 1) ≤ p.getD j 0 ∧ p.getD j 0 ≤ n - 1)

/-! ## Claim theorems -/

/-- C1 (counterexample): at `n = 1, d = 1, compact = false` the set of
position vectors stored in `make_layout(n,d,compact).points` is NOT the
key set of `make_solved(n,d).stickers`: the layout also stores the
interior body cell `[0]`, which is no sticker key. -/
theorem claim_C1_counterexample :
    ¬ (∀ p : List Int, p ∈ (Layout.make_layout 1 1 false).posList ↔
        ((Puzzle.make_solved 1 1).stickers p).isSome) := by
  intro h
  have h1 : [0] ∈ (Layout.make_layout 1 1 false).posList := by decide
  have h2 : ((Puzzle.make_solved 1 1).stickers [0]).isSome := (h [0]).mp h1
  exact absurd h2 (by decide)

/-- C1 (amended): for every `n ≥ 1`, `1 ≤ d ≤ 8`, either value of
`compact`, and whenever the conservative layout size estimate `sizeBound`
fits in `i16` (which guarantees that none of the wrapping `u16` / `i16`
casts performed while building the layout loses information — outside
this envelope, e.g. at `n = 19, d = 7`, the accumulated screen width
genuinely overflows `i16`), the set of position vectors stored as the
values of `make_layout(n,d,compact).points` equals the key set of
`make_solved(n,d).stickers` TOGETHER WITH the all-interior body cells
(length-`d` vectors all of whose coordinates lie on the interior grid),
and distinct screen coordinates hold distinct position vectors (the
stored screen coordinates are pairwise distinct and the stored position
vectors are pairwise distinct — a bijection). -/
theorem claim_C1_amended (n : Int) (d : Nat) (compact : Bool)
    (hn : 1 ≤ n) (hd : 1 ≤ d) (hcap : d ≤ 8)
    (hfit1 : (sizeBound n compact d).1 ≤ 32767)
    (hfit2 : (sizeBound n compact d).2 ≤ 32767) :
    (∀ p, p ∈ (Layout.make_layout n d compact).posList ↔
      (((Puzzle.make_solved n d).stickers p).isSome ∨ isBody n d p)) ∧
    ((Layout.make_layout n d compact).points.map (fun e => e.1)).Nodup ∧
    ((Layout.make_layout n d compact).posList).Nodup := by
  obtain ⟨⟨_, _, _, hk, hv⟩, hm, _, _⟩ := make_layout_spec hn compact d hfit1 hfit2
  refine ⟨?_, hk, hv⟩
  intro p
  rw [hm p, isCell_iff_sticker_or_body hn, make_solved_support hn hd p]

/-- Witness for C1 (amended) at `n = 1, d = 1, compact = false`. -/
theorem claim_C1_witness :
    (∀ p, p ∈ (Layout.make_layout 1 1 false).posList ↔
      (((Puzzle.make_solved 1 1).stickers p).isSome ∨ isBody 1 1 p)) ∧
    ((Layout.make_layout 1 1 false).points.map (fun e => e.1)).Nodup ∧
    ((Layout.make_layout 1 1 false).posList).Nodup :=
  claim_C1_amended 1 1 false (by decide) (by decide) (by decide)
    (by decide) (by decide)

/-- C2: for every valid pair `(n, d)` with `n ≥ 1` and `d ≥ 1`,
`make_solved(n,d).is_solved()` holds (every face is monochromatic). -/
theorem claim_C2 (n : Int) (d : Nat) (hn : 1 ≤ n) (hd : 1 ≤ d) :
    (Puzzle.make_solved n d).is_solved :=
  make_solved_is_solved hn hd

/-- Witness for C2 at `n = 2, d = 2`. -/
theorem claim_C2_witness : (Puzzle.make_solved 2 2).is_solved :=
  claim_C2 2 2 (by decide) (by decide)

/-- C3: a structurally valid in-range side turn on a state satisfying the
key-set invariant succeeds; every position whose coordinate along `side`'s
unsigned axis lies outside `[layer_min - 1, layer_max + 1]` keeps its
pre-turn color, and every stored position inside that window receives the
pre-turn color of its pre-image `rotPos` under the normalized
(sign-flip-swapped) axis pair `normFromTo`. -/
theorem claim_C3 (p : Puzzle) (t : SideTurn) (hK : p.KeyInv)
    (hv : ¬ sideTurnInvalid t)
    (hside : ax t.side < (p.d : Int)) (hsrc : ax t.src < (p.d : Int))
    (hdst : ax t.dst < (p.d : Int)) :
    (p.side_turn t).1 = some () ∧
    ∀ pos,
      (¬ inWindow t pos → ((p.side_turn t).2).stickers pos = p.stickers pos) ∧
      (inWindow t pos → (p.stickers pos).isSome →
        ((p.side_turn t).2).stickers pos =
          p.stickers (rotPos (normFromTo t.src t.dst).1.toNat
            (normFromTo t.src t.dst).2.toNat pos)) := by
  refine ⟨side_turn_fst_valid hv, ?_⟩
  intro pos
  constructor
  · intro hw
    rw [side_turn_stickers hv, if_neg (by tauto)]
  · intro hw hsome
    rw [side_turn_stickers hv, if_pos ⟨hsome, hw⟩]

/-- Witness for C3 on the solved `1×1×1×1` (`n = 1, d = 3`) puzzle. -/
theorem claim_C3_witness :
    ((Puzzle.make_solved 1 3).side_turn ⟨0, 0, 0, 1, 2⟩).1 = some () ∧
    ((Puzzle.make_solved 1 3).side_turn ⟨0, 0, 0, 1, 2⟩).2.stickers [0, 1, 0] =
      (Puzzle.make_solved 1 3).stickers
        (rotPos (normFromTo 1 2).1.toNat (normFromTo 1 2).2.toNat [0, 1, 0]) := by
  have h := claim_C3 (Puzzle.make_solved 1 3) ⟨0, 0, 0, 1, 2⟩
    (make_solved_KeyInv (by decide) (by decide)) (by decide) (by decide) (by decide)
    (by decide)
  exact ⟨h.1, (h.2 [0, 1, 0]).2 (by decide) (by decide)⟩

/-- C4: for every structurally valid, in-range `Turn` and every state
satisfying the key-set invariant, applying the turn and then its inverse
restores the sticker mapping exactly. -/
theorem claim_C4 (p : Puzzle) (t : Turn) (hK : p.KeyInv)
    (hv : turnValid t) (hr : turnInRange t p.d) :
    (((p.turn t).2).turn t.inverse).2.stickers = p.stickers := by
  cases t with
  | side t =>
    show (((p.side_turn t).2).side_turn t.inverse).2.stickers = p.stickers
    exact side_turn_inv_stickers hK hv hr.1 hr.2.1 hr.2.2
  | puzzle t =>
    show (((p.puzzle_rotate t).2).puzzle_rotate t.inverse).2.stickers = p.stickers
    exact puzzle_rotate_inv_stickers hK hv hr.1 hr.2.1 hr.2.2.1 hr.2.2.2

/-- Witness for C4: a side turn and a whole-puzzle rotation on the solved
`n = 1, d = 3` puzzle. -/
theorem claim_C4_witness :
    ((((Puzzle.make_solved 1 3).turn (Turn.side ⟨0, 0, 0, 1, 2⟩)).2).turn
      (Turn.side ⟨0, 0, 0, 1, 2⟩).inverse).2.stickers =
        (Puzzle.make_solved 1 3).stickers ∧
    ((((Puzzle.make_solved 1 3).turn (Turn.puzzle ⟨0, 2⟩)).2).turn
      (Turn.puzzle ⟨0, 2⟩).inverse).2.stickers =
        (Puzzle.make_solved 1 3).stickers :=
  ⟨claim_C4 (Puzzle.make_solved 1 3) (Turn.side ⟨0, 0, 0, 1, 2⟩)
      (make_solved_KeyInv (by decide) (by decide)) (by decide) (by decide),
    claim_C4 (Puzzle.make_solved 1 3) (Turn.puzzle ⟨0, 2⟩)
      (make_solved_KeyInv (by decide) (by decide)) (by decide) (by decide)⟩

/-- C5: a side turn returns the failure outcome exactly when `side`'s
unsigned axis equals `from`'s or `to`'s, or `from`'s equals `to`'s; on
failure the state (hence the sticker mapping) is completely unchanged;
and with three pairwise-distinct in-range unsigned axes it succeeds. -/
theorem claim_C5 (p : Puzzle) (t : SideTurn) :
    ((p.side_turn t).1 = none ↔
      (ax t.side = ax t.src ∨ ax t.side = ax t.dst ∨ ax t.src = ax t.dst)) ∧
    ((p.side_turn t).1 = none → (p.side_turn t).2 = p) ∧
    ((ax t.side ≠ ax t.src ∧ ax t.side ≠ ax t.dst ∧ ax t.src ≠ ax t.dst ∧
        ax t.side < (p.d : Int) ∧ ax t.src < (p.d : Int) ∧ ax t.dst < (p.d : Int)) →
      (p.side_turn t).1 = some ()) := by
  refine ⟨⟨?_, ?_⟩, ?_, ?_⟩
  · intro h
    by_contra hc
    rw [side_turn_fst_valid (fun hv => hc ((sideTurnInvalid_iff t).mp hv))] at h
    exact Option.noConfusion h
  · intro h
    rw [side_turn_fst_invalid ((sideTurnInvalid_iff t).mpr h)]
  · intro h
    by_cases hv : sideTurnInvalid t
    · exact side_turn_snd_invalid hv
    · rw [side_turn_fst_valid hv] at h
      exact Option.noConfusion h
  · rintro ⟨h1, h2, h3, _, _, _⟩
    refine side_turn_fst_valid ?_
    intro hv
    rcases (sideTurnInvalid_iff t).mp hv with h | h | h
    · exact h1 h
    · exact h2 h
    · exact h3 h

/-- Witness for C5: a degenerate turn (`from = to`) fails as a strict
no-op, and a valid one succeeds, on the solved `n = 1, d = 3` puzzle. -/
theorem claim_C5_witness :
    ((Puzzle.make_solved 1 3).side_turn ⟨0, 0, 0, 1, 1⟩).1 = none ∧
    ((Puzzle.make_solved 1 3).side_turn ⟨0, 0, 0, 1, 1⟩).2 = Puzzle.make_solved 1 3 ∧
    ((Puzzle.make_solved 1 3).side_turn ⟨0, 0, 0, 1, 2⟩).1 = some () := by
  have h1 := claim_C5 (Puzzle.make_solved 1 3) ⟨0, 0, 0, 1, 1⟩
  have h2 := claim_C5 (Puzzle.make_solved 1 3) ⟨0, 0, 0, 1, 2⟩
  refine ⟨h1.1.mpr (by decide), h1.2.1 (h1.1.mpr (by decide)), h2.2.2 (by decide)⟩

/-- C6 (counterexample): the claimed key-set description ("the remaining
coordinates are odd integers") fails on the code for odd `n`: the key
`[1, 0]` of `make_solved(1, 2)` has the even interior coordinate `0`. -/
theorem claim_C6_counterexample :
    ¬ (∀ pos, ((Puzzle.make_solved 1 2).stickers pos).isSome ↔
        isStickerOddSpec 1 2 pos) := by
  intro h
  have h1 : ((Puzzle.make_solved 1 2).stickers [1, 0]).isSome := by decide
  obtain ⟨hlen, f, hf, hb, hrest⟩ := (h [1, 0]).mp h1
  have hlen2 : ([1, 0] : List Int).length = 2 := by decide
  rw [hlen2] at hf
  match f, hf with
  | 0, _ =>
    have h0 := hrest 1 (by rw [hlen2]; omega) (by omega)
    obtain ⟨⟨m, hm⟩, _, _⟩ := h0
    have hD : ([1, 0] : List Int).getD 1 0 = 0 := by decide
    rw [hD] at hm
    omega
  | 1, _ =>
    have hD : ([1, 0] : List Int).getD 1 0 = 0 := by decide
    rw [hD] at hb
    simp at hb

/-- C6 (amended): the key set of `make_solved(n,d)` (for `n ≥ 1, d ≥ 1`)
consists exactly of the positions with one coordinate of absolute value
`n` and all remaining coordinates on the interior grid
`-n+1, -n+3, …, n-1` (integers of parity opposite to `n`, not always
odd); the mapping is total over this key set; and every turn — valid or
rejected — with in-range axes leaves the key set identical, rewriting
only values. -/
theorem claim_C6_amended :
    (∀ (n : Int) (d : Nat), 1 ≤ n → 1 ≤ d → ∀ pos,
      (((Puzzle.make_solved n d).stickers pos).isSome ↔ isSticker n d pos)) ∧
    (∀ (p : Puzzle) (t : Turn), p.KeyInv → turnInRange t p.d → ∀ pos,
      ((((p.turn t).2).stickers pos).isSome ↔ (p.stickers pos).isSome)) := by
  constructor
  · intro n d hn hd pos
    exact make_solved_support hn hd pos
  · intro p t hK hr pos
    cases t with
    | side t =>
      show (((p.side_turn t).2).stickers pos).isSome ↔ _
      by_cases hv : sideTurnInvalid t
      · rw [side_turn_snd_invalid hv]
      · obtain ⟨hfg, hF, hG, _, _⟩ := sideTurn_axes hv hr.1 hr.2.1 hr.2.2
        rw [side_turn_stickers hv]
        by_cases hcond : (p.stickers pos).isSome ∧ inWindow t pos
        · rw [if_pos hcond]
          exact iff_of_true (hK.closed hfg hF hG hcond.1) hcond.1
        · rw [if_neg hcond]
    | puzzle t =>
      show (((p.puzzle_rotate t).2).stickers pos).isSome ↔ _
      by_cases hv : puzzleTurnInvalid t
      · rw [puzzle_rotate_snd_invalid hv]
      · have hfg : t.src.toNat ≠ t.dst.toNat := by
          rw [puzzleTurnInvalid] at hv
          push_neg at hv
          have h1 : 0 ≤ t.src := hr.1
          have h2 : 0 ≤ t.dst := hr.2.2.1
          omega
        rw [puzzle_rotate_stickers hv]
        by_cases hcond : (p.stickers pos).isSome
        · rw [if_pos hcond]
          exact iff_of_true
            (hK.closed hfg (by have h1 := hr.1; have h2 := hr.2.1; omega)
              (by have h1 := hr.2.2.1; have h2 := hr.2.2.2; omega) hcond)
            hcond
        · rw [if_neg hcond]
          exact iff_of_false (by simp) hcond

/-- Witness for C6 (amended) at `n = 1, d = 2` with a whole-puzzle
rotation. -/
theorem claim_C6_witness :
    (((Puzzle.make_solved 1 2).stickers [1, 0]).isSome ↔ isSticker 1 2 [1, 0]) ∧
    (((((Puzzle.make_solved 1 2).turn (Turn.puzzle ⟨0, 1⟩)).2).stickers [1, 0]).isSome ↔
      ((Puzzle.make_solved 1 2).stickers [1, 0]).isSome) :=
  ⟨claim_C6_amended.1 1 2 (by decide) (by decide) [1, 0],
    claim_C6_amended.2 (Puzzle.make_solved 1 2) (Turn.puzzle ⟨0, 1⟩)
      (make_solved_KeyInv (by decide) (by decide)) (by decide) [1, 0]⟩

/-- C7: applying the same structurally valid in-range side turn four times
in succession returns the sticker mapping to exactly its original value. -/
theorem claim_C7 (p : Puzzle) (t : SideTurn) (hK : p.KeyInv)
    (hv : ¬ sideTurnInvalid t)
    (hside : ax t.side < (p.d : Int)) (hsrc : ax t.src < (p.d : Int))
    (hdst : ax t.dst < (p.d : Int)) :
    (((((p.side_turn t).2.side_turn t).2.side_turn t).2.side_turn t).2).stickers =
      p.stickers := by
  obtain ⟨hfg, hF, hG, _, _⟩ := sideTurn_axes hv hside hsrc hdst
  have hiter := side_turn_iter_stickers hK hv hside hsrc hdst 4
  have hnested : (fun q : Puzzle => (q.side_turn t).2)^[4] p =
      ((((p.side_turn t).2.side_turn t).2.side_turn t).2.side_turn t).2 := by
    rw [Function.iterate_succ_apply', Function.iterate_succ_apply',
      Function.iterate_succ_apply', Function.iterate_succ_apply',
      Function.iterate_zero_apply]
  funext pos
  rw [← hnested, hiter pos]
  by_cases hcond : (p.stickers pos).isSome ∧ inWindow t pos
  · rw [if_pos hcond]
    have hlen : pos.length = p.d := hK.length hcond.1
    have hrot : (rotPos (normFromTo t.src t.dst).1.toNat
        (normFromTo t.src t.dst).2.toNat)^[4] pos = pos := by
      rw [Function.iterate_succ_apply', Function.iterate_succ_apply',
        Function.iterate_succ_apply', Function.iterate_succ_apply',
        Function.iterate_zero_apply]
      exact rotPos_four hfg (by omega) (by omega)
    rw [hrot]
  · rw [if_neg hcond]

/-- Witness for C7 on the solved `n = 1, d = 3` puzzle. -/
theorem claim_C7_witness :
    ((((((Puzzle.make_solved 1 3).side_turn ⟨0, 0, 0, 1, 2⟩).2.side_turn
      ⟨0, 0, 0, 1, 2⟩).2.side_turn ⟨0, 0, 0, 1, 2⟩).2.side_turn
      ⟨0, 0, 0, 1, 2⟩).2).stickers = (Puzzle.make_solved 1 3).stickers :=
  claim_C7 (Puzzle.make_solved 1 3) ⟨0, 0, 0, 1, 2⟩
    (make_solved_KeyInv (by decide) (by decide)) (by decide) (by decide) (by decide)
    (by decide)

/-- C8: on a state satisfying the key-set invariant with `n ≥ 2`, for a
body position with exactly two coordinates of absolute value `n - 1`,
`stickersAt` (the source's `Puzzle::stickers`) returns exactly two colors:
the colors stored at the two positions obtained by shifting each of those
coordinates outward to its boundary value `±n` (so as a set the result is
exactly those two boundary colors). -/
theorem claim_C8 (p : Puzzle) (hK : p.KeyInv) (hn : 2 ≤ p.n) (pos : List Int)
    (hbody : isBody p.n p.d pos)
    (hcount : pos.countP (fun x => decide (|x| = p.n - 1)) = 2) :
    ∃ (i j : Nat) (c₁ c₂ : Int), i < j ∧ j < pos.length ∧
      |pos.getD i 0| = p.n - 1 ∧ |pos.getD j 0| = p.n - 1 ∧
      p.stickers (outShift p.n pos i) = some c₁ ∧
      p.stickers (outShift p.n pos j) = some c₂ ∧
      p.stickersAt pos = some [c₁, c₂] :=
  stickersAt_two_boundary hK hn hbody hcount

/-- Witness for C8: the corner body `[1, 1]` of the solved `2×2`
puzzle (`n = 2, d = 2`). -/
theorem claim_C8_witness :
    ∃ (i j : Nat) (c₁ c₂ : Int), i < j ∧ j < ([1, 1] : List Int).length ∧
      |([1, 1] : List Int).getD i 0| = (Puzzle.make_solved 2 2).n - 1 ∧
      |([1, 1] : List Int).getD j 0| = (Puzzle.make_solved 2 2).n - 1 ∧
      (Puzzle.make_solved 2 2).stickers
        (outShift (Puzzle.make_solved 2 2).n [1, 1] i) = some c₁ ∧
      (Puzzle.make_solved 2 2).stickers
        (outShift (Puzzle.make_solved 2 2).n [1, 1] j) = some c₂ ∧
      (Puzzle.make_solved 2 2).stickersAt [1, 1] = some [c₁, c₂] :=
  claim_C8 (Puzzle.make_solved 2 2) (make_solved_KeyInv (by decide) (by decide))
    (by decide) [1, 1] (by decide) (by decide)

/-- C9: under the key-set invariant, for any structurally valid in-range
turn, the pre-image position `rotPos` computed inside `side_turn` (for
stored positions inside the layer window) and inside `puzzle_rotate` (for
all stored positions) is itself a key of the pre-turn sticker map — the
direct map lookup cannot fail. -/
theorem claim_C9 (p : Puzzle) (hK : p.KeyInv) :
    (∀ t : SideTurn, ¬ sideTurnInvalid t →
      ax t.side < (p.d : Int) → ax t.src < (p.d : Int) → ax t.dst < (p.d : Int) →
      ∀ pos, (p.stickers pos).isSome → inWindow t pos →
        (p.stickers (rotPos (normFromTo t.src t.dst).1.toNat
          (normFromTo t.src t.dst).2.toNat pos)).isSome) ∧
    (∀ t : PuzzleTurn, ¬ puzzleTurnInvalid t →
      0 ≤ t.src → t.src < (p.d : Int) → 0 ≤ t.dst → t.dst < (p.d : Int) →
      ∀ pos, (p.stickers pos).isSome →
        (p.stickers (rotPos t.src.toNat t.dst.toNat pos)).isSome) := by
  constructor
  · intro t hv h1 h2 h3 pos hs _
    obtain ⟨hfg, hF, hG, _, _⟩ := sideTurn_axes hv h1 h2 h3
    exact hK.closed hfg hF hG hs
  · intro t hv h0 h1 h0' h1' pos hs
    have hfg : t.src.toNat ≠ t.dst.toNat := by
      rw [puzzleTurnInvalid] at hv
      push_neg at hv
      omega
    exact hK.closed hfg (by omega) (by omega) hs

/-- Witness for C9 on the solved `n = 1, d = 3` puzzle. -/
theorem claim_C9_witness :
    ((Puzzle.make_solved 1 3).stickers
      (rotPos (normFromTo 1 2).1.toNat (normFromTo 1 2).2.toNat [0, 1, 0])).isSome ∧
    ((Puzzle.make_solved 1 3).stickers (rotPos 0 2 [0, 1, 0])).isSome := by
  have h := claim_C9 (Puzzle.make_solved 1 3)
    (make_solved_KeyInv (by decide) (by decide))
  exact ⟨h.1 ⟨0, 0, 0, 1, 2⟩ (by decide) (by decide) (by decide) (by decide) [0, 1, 0]
      (by decide) (by decide),
    h.2 ⟨0, 2⟩ (by decide) (by decide) (by decide) (by decide) (by decide) [0, 1, 0]
      (by decide)⟩

/-- C10: the sign of `side` is irrelevant to `side_turn`: complementing it
(all other fields equal) yields the same outcome and the same resulting
sticker mapping on every state, because the validity check and the layer
window both read only `side`'s unsigned axis. -/
theorem claim_C10 (p : Puzzle) (t : SideTurn) :
    (p.side_turn { t with side := cpl t.side }).1 = (p.side_turn t).1 ∧
    ((p.side_turn { t with side := cpl t.side }).2).stickers =
      ((p.side_turn t).2).stickers := by
  have hval : sideTurnInvalid { t with side := cpl t.side } ↔ sideTurnInvalid t := by
    rw [sideTurnInvalid, sideTurnInvalid]
    dsimp only
    unfold cpl
    constructor <;> intro h <;> omega
  have hwin : ∀ pos, inWindow { t with side := cpl t.side } pos ↔ inWindow t pos := by
    intro pos
    rw [inWindow, inWindow]
    dsimp only
    rw [sideCoord_cpl]
  by_cases hv : sideTurnInvalid t
  · have hv' : sideTurnInvalid { t with side := cpl t.side } := hval.mpr hv
    rw [side_turn_fst_invalid hv, side_turn_fst_invalid hv',
      side_turn_snd_invalid hv, side_turn_snd_invalid hv']
    exact ⟨rfl, rfl⟩
  · have hv' : ¬ sideTurnInvalid { t with side := cpl t.side } := fun h => hv (hval.mp h)
    refine ⟨by rw [side_turn_fst_valid hv, side_turn_fst_valid hv'], ?_⟩
    funext pos
    rw [side_turn_stickers hv, side_turn_stickers hv']
    by_cases hsome : (p.stickers pos).isSome
    · by_cases hw : inWindow t pos
      · rw [if_pos ⟨hsome, (hwin pos).mpr hw⟩, if_pos ⟨hsome, hw⟩]
      · rw [if_neg (fun hc => hw ((hwin pos).mp hc.2)), if_neg (fun hc => hw hc.2)]
    · rw [if_neg (fun hc => hsome hc.1), if_neg (fun hc => hsome hc.1)]
